import Mathlib

/-!
# Game of Life sketch (`src/js/game-of-life.js`)

A shallow embedding of the simulation engine of the sketch: the `Cell` and
`Universe` classes, the global flags they touch, and the `mousePressed`
handler.

Modelling conventions.

* JavaScript numbers that hold integers (coordinates, array indices, the hash
  accumulator) are `Int`; loop bounds and lengths are `Nat`.  The `%` operator
  is `Int.tmod` (remainder with the sign of the dividend), `ToInt32` is
  `toInt32`.
* Numbers that hold fractions (probabilities, pointer positions, cell sizes in
  pixels, lightness) are `ℚ`; every comparison the code makes is exact on them.
* `undefined` is `none`.  Reading a property of `undefined` raises a
  `TypeError`: inside `Cell` methods this is `none`, and in the operations that
  mutate state it is `Except.error st` where `st` is the state at the moment of
  the throw.
* Truthiness: `isAlive` and `isRunning` become `0`/`1` after `^= true`; every
  use in the source is a truthiness test, so they are `Bool`.
* The colour library `chroma` and `Math.random` are outside the repository: the
  former is the parameter `lib`, the latter a stream of draws in `[0, 1)` held
  in `Env` together with the global flags.
* Painting has no effect on the state: of `show` only the reads of the cells,
  which can throw, are kept.
-/

namespace GameOfLife

/-! ## External collaborators -/

/-- The operations of the colour library used by the sketch, on hex colours. -/
structure Chroma (Color : Type) where
  /-- The value `COLOR_SCALE(t).hex()`. -/
  scale : ℚ → Color
  /-- The value `chroma('black').hex()`. -/
  black : Color
  /-- The value `chroma.average(colors).hex()`. -/
  average : List Color → Color
  /-- The value `chroma(c).darken(k).hex()`. -/
  darken : Color → ℚ → Color
  /-- The value `chroma(c).hsl()[2]`. -/
  lightness : Color → ℚ

/-- One result of `Math.random()`: a number in `[0, 1)`. -/
structure Draw where
  val : ℚ
  nonneg : 0 ≤ val
  lt_one : val < 1

/-- The global variables of the sketch other than `universe`, and the source of
random numbers (`draws` is the sequence `Math.random` will return, `used` how
many of them have been handed out). -/
structure Env where
  isRunning : Bool
  isColored : Bool
  frameSpeed : Nat
  draws : Nat → Draw
  used : Nat

/-- The call `Math.random()`: the next draw, and the environment after it. -/
def Math.random (env : Env) : ℚ × Env :=
  ((env.draws env.used).val, { env with used := env.used + 1 })

/-! ## Global constants -/

def CELL_SIZE : Nat := 25

def UNIVERSE_LIFE_PROBABILITY : ℚ := 3 / 10

def COLOR_LIGHTNESS_THRESHOLD : ℚ := 1 / 10

def COLOR_FADE : ℚ := 15 / 100

/-! ## Data model -/

/-- The fields `x`, `y`, `isAlive`, `color` of a `Cell`.  The field `universe`
is the universe that owns the cell and is passed to the methods instead; the
eight `Index*` fields are assigned once, in the constructor, from `x`, `y` and
the dimensions of that universe, and are the functions `Cell.IndexUp` .. below. -/
structure Cell (Color : Type) where
  x : Int
  y : Int
  isAlive : Bool
  color : Color

/-- The fields of a `Universe`. -/
structure Universe (Color : Type) where
  dimX : Nat
  dimY : Nat
  generation : Nat
  cells : List (Cell Color)
  id : Int

/-- The state the operations act on: the universe and the globals. -/
abbrev State (Color : Type) : Type := Universe Color × Env

variable {Color : Type}

/-! ## Cell -/

/-- Constructor line `leftX = (this.x - 1 + this.universe.dimX) % this.universe.dimX`. -/
def Cell.leftX (u : Universe Color) (c : Cell Color) : Int :=
  Int.tmod (c.x - 1 + u.dimX) u.dimX

/-- Constructor line `rightX = (this.x + 1) % this.universe.dimX`. -/
def Cell.rightX (u : Universe Color) (c : Cell Color) : Int :=
  Int.tmod (c.x + 1) u.dimX

/-- Constructor line `aboveY = (this.y - 1 + this.universe.dimY) % this.universe.dimY`. -/
def Cell.aboveY (u : Universe Color) (c : Cell Color) : Int :=
  Int.tmod (c.y - 1 + u.dimY) u.dimY

/-- Constructor line `belowY = (this.y + 1) % this.universe.dimY`. -/
def Cell.belowY (u : Universe Color) (c : Cell Color) : Int :=
  Int.tmod (c.y + 1) u.dimY

def Cell.IndexUp (u : Universe Color) (c : Cell Color) : Int × Int :=
  (c.x, c.aboveY u)

def Cell.IndexUpRight (u : Universe Color) (c : Cell Color) : Int × Int :=
  (c.rightX u, c.aboveY u)

def Cell.IndexRight (u : Universe Color) (c : Cell Color) : Int × Int :=
  (c.rightX u, c.y)

def Cell.IndexDownRight (u : Universe Color) (c : Cell Color) : Int × Int :=
  (c.rightX u, c.belowY u)

def Cell.IndexDown (u : Universe Color) (c : Cell Color) : Int × Int :=
  (c.x, c.belowY u)

def Cell.IndexDownLeft (u : Universe Color) (c : Cell Color) : Int × Int :=
  (c.leftX u, c.belowY u)

def Cell.IndexLeft (u : Universe Color) (c : Cell Color) : Int × Int :=
  (c.leftX u, c.y)

def Cell.IndexUpLeft (u : Universe Color) (c : Cell Color) : Int × Int :=
  (c.leftX u, c.aboveY u)

/-- The eight index pairs in the order in which `getNeighbours` reads them. -/
def Cell.neighbourIndices (u : Universe Color) (c : Cell Color) : List (Int × Int) :=
  [c.IndexUp u, c.IndexUpRight u, c.IndexRight u, c.IndexDownRight u,
   c.IndexDown u, c.IndexDownLeft u, c.IndexLeft u, c.IndexUpLeft u]

/-- Method `Universe.getCell`: the array read `this.cells[y * this.dimX + x]`,
`undefined` outside the array. -/
def Universe.getCell (u : Universe Color) (x y : Int) : Option (Cell Color) :=
  let i := y * u.dimX + x
  if 0 ≤ i then u.cells[i.toNat]? else none

/-- Method `Cell.getNeighbours`: eight array reads, each possibly `undefined`. -/
def Cell.getNeighbours (u : Universe Color) (c : Cell Color) : List (Option (Cell Color)) :=
  [u.getCell (c.IndexUp u).1 (c.IndexUp u).2,
   u.getCell (c.IndexUpRight u).1 (c.IndexUpRight u).2,
   u.getCell (c.IndexRight u).1 (c.IndexRight u).2,
   u.getCell (c.IndexDownRight u).1 (c.IndexDownRight u).2,
   u.getCell (c.IndexDown u).1 (c.IndexDown u).2,
   u.getCell (c.IndexDownLeft u).1 (c.IndexDownLeft u).2,
   u.getCell (c.IndexLeft u).1 (c.IndexLeft u).2,
   u.getCell (c.IndexUpLeft u).1 (c.IndexUpLeft u).2]

/-- Method `Cell.getNeighboursState`: pushes `cell.isAlive` for each neighbour;
`none` when a neighbour is `undefined`. -/
def Cell.getNeighboursState (u : Universe Color) (c : Cell Color) : Option (List Bool) :=
  (c.getNeighbours u).foldlM
    (fun states cell => cell.map (fun n => states ++ [n.isAlive])) []

/-- Method `Cell.getLiveNeighboursColors`: pushes `cell.color` for each live
neighbour; `none` when a neighbour is `undefined`. -/
def Cell.getLiveNeighboursColors (u : Universe Color) (c : Cell Color) : Option (List Color) :=
  (c.getNeighbours u).foldlM
    (fun colors cell => cell.map (fun n => if n.isAlive then colors ++ [n.color] else colors)) []

/-- Method `Cell.getLiveNeighboursCount`: `getNeighboursState().filter(Boolean).length`. -/
def Cell.getLiveNeighboursCount (u : Universe Color) (c : Cell Color) : Option Nat :=
  (c.getNeighboursState u).map (fun states => (states.filter id).length)

/-! ## The state hash -/

/-- The conversion `ToInt32`: reduction modulo `2^32` into `[-2^31, 2^31)`. -/
def toInt32 (n : Int) : Int :=
  (n + 2147483648) % 4294967296 - 2147483648

/-- The operator `a << k` for a shift count `k < 32`. -/
def shiftLeft32 (a : Int) (k : Nat) : Int :=
  toInt32 (toInt32 a * 2 ^ k)

/-- The operator `a & b`. -/
def and32 (a b : Int) : Int :=
  toInt32 (Int.land (toInt32 a) (toInt32 b))

/-- The reducer of `hashCode`: `a = ((a << 5) - a) + b.charCodeAt(0); return a & a`. -/
def hashStep (a : Int) (b : Char) : Int :=
  let a := (shiftLeft32 a 5 - a) + (b.toNat : Int)
  and32 a a

/-- The local function `hashCode` of `generateHashId`: `s.split('').reduce(.., 0)`. -/
def hashCode (s : List Char) : Int :=
  s.foldl hashStep 0

/-- The string built by the first loop of `generateHashId`. -/
def bitString (cells : List (Cell Color)) : List Char :=
  cells.foldl (fun id cell => id ++ [if cell.isAlive then '1' else '0']) []

/-- Method `Universe.generateHashId`. -/
def Universe.generateHashId (u : Universe Color) : Universe Color :=
  { u with id := hashCode (bitString u.cells) }

/-! ## Universe -/

/-- The body of the inner loop of `random`: one cell is drawn and pushed. -/
def Universe.randomCell (lib : Chroma Color) (lifeProbability : ℚ) (y : Nat)
    (acc : List (Cell Color) × Env) (x : Nat) : List (Cell Color) × Env :=
  let r := Math.random acc.2
  let isAlive : Bool := decide (r.1 < lifeProbability)
  if isAlive then
    let r2 := Math.random r.2
    (acc.1 ++ [Cell.mk x y isAlive (lib.scale r2.1)], r2.2)
  else
    (acc.1 ++ [Cell.mk x y isAlive lib.black], r.2)

/-- Method `Universe.random`. -/
def Universe.random (lib : Chroma Color) (u : Universe Color) (lifeProbability : ℚ)
    (env : Env) : State Color :=
  let filled := (List.range u.dimY).foldl
    (fun acc y => (List.range u.dimX).foldl (Universe.randomCell lib lifeProbability y) acc)
    ([], env)
  (Universe.generateHashId { u with cells := filled.1, generation := 0 }, filled.2)

/-- The constructor `new Universe(dimX, dimY)`. -/
def Universe.new (lib : Chroma Color) (dimX dimY : Nat) (env : Env) : State Color :=
  Universe.random lib
    { dimX := dimX, dimY := dimY, generation := 0, cells := [], id := 0 }
    UNIVERSE_LIFE_PROBABILITY env

/-- Method `Universe.clear`. -/
def Universe.clear (lib : Chroma Color) (u : Universe Color) (env : Env) : State Color :=
  let r := Universe.random lib u 0 env
  (r.1, { r.2 with isRunning := false })

/-- Method `Universe.show`: for every position of the grid the cell is read with
`getCell` and its colour is read to paint a rectangle; `none` when a cell read is
`undefined`. -/
def Universe.show (u : Universe Color) : Option Unit :=
  (List.range u.dimY).foldlM
    (fun _ y => (List.range u.dimX).foldlM
      (fun _ x => (u.getCell x y).map (fun _ => ())) ()) ()

/-- The callback of the `forEach` in `nextGeneration`: the next cell for `cell`
is pushed on `nextGen`. -/
def Universe.nextCell (lib : Chroma Color) (u : Universe Color)
    (acc : List (Cell Color) × Env) (cell : Cell Color) :
    Except (State Color) (List (Cell Color) × Env) :=
  let x := cell.x
  let y := cell.y
  match u.getCell x y with
  | none => Except.error (u, acc.2)
  | some here =>
    let alive := here.isAlive
    match here.getLiveNeighboursCount u with
    | none => Except.error (u, acc.2)
    | some aliveNeighbours =>
      let color := cell.color
      match cell.getLiveNeighboursColors u with
      | none => Except.error (u, acc.2)
      | some aliveNeighboursColors =>
        let nextState : Bool :=
          if alive then (aliveNeighbours == 2 || aliveNeighbours == 3)
          else (aliveNeighbours == 3)
        if alive && nextState then
          Except.ok (acc.1 ++ [Cell.mk x y nextState (lib.average aliveNeighboursColors)], acc.2)
        else if !alive && nextState then
          let r := Math.random acc.2
          Except.ok (acc.1 ++ [Cell.mk x y nextState (lib.scale r.1)], r.2)
        else
          let nextColor :=
            if lib.lightness color < COLOR_LIGHTNESS_THRESHOLD then color
            else lib.darken color COLOR_FADE
          Except.ok (acc.1 ++ [Cell.mk x y nextState nextColor], acc.2)

/-- Method `Universe.nextGeneration`. -/
def Universe.nextGeneration (lib : Chroma Color) (u : Universe Color) (env : Env) :
    Except (State Color) (State Color) :=
  match u.cells.foldlM (Universe.nextCell lib u) ([], env) with
  | Except.error st => Except.error st
  | Except.ok nextGen =>
    Except.ok ({ u with cells := nextGen.1, generation := u.generation + 1 }, nextGen.2)

/-! ## The sketch: `setup` and `mousePressed` -/

/-- The values of the constants `LEFT`, `CENTER`, `RIGHT` that `mouseButton` takes. -/
inductive MouseButton where
  | LEFT
  | CENTER
  | RIGHT
deriving DecidableEq

/-- The globals of the drawing library that `mousePressed` reads: the canvas size
and the pointer. -/
structure Pointer where
  width : Nat
  height : Nat
  mouseX : ℚ
  mouseY : ℚ
  mouseButton : MouseButton

/-- The assignment `universeWidth = Math.floor(width / CELL_SIZE)` of `setup`. -/
def universeWidthOf (width : Nat) : Nat := width / CELL_SIZE

/-- The assignment `universeHeight = Math.floor(height / CELL_SIZE)` of `setup`. -/
def universeHeightOf (height : Nat) : Nat := height / CELL_SIZE

/-- The part of `setup` that creates the universe. -/
def setup (lib : Chroma Color) (width height : Nat) (env : Env) : State Color :=
  Universe.new lib (universeWidthOf width) (universeHeightOf height) env

/-- The condition of the `if` in the loops of `mousePressed`. -/
def mouseOver (p : Pointer) (GRID_LINE_DIM GRID_COLUMN_DIM : ℚ) (x y : Nat) : Prop :=
  p.mouseY > y * GRID_LINE_DIM ∧
  p.mouseY < y * GRID_LINE_DIM + GRID_LINE_DIM ∧
  p.mouseX > x * GRID_COLUMN_DIM ∧
  p.mouseX < x * GRID_COLUMN_DIM + GRID_COLUMN_DIM

instance (p : Pointer) (l c : ℚ) (x y : Nat) : Decidable (mouseOver p l c x y) := by
  unfold mouseOver
  infer_instance

/-- The statements under the `if` of `mousePressed`: the cell object held at
`cells[y * dimX + x]` is updated in place, then the universe is painted. -/
def toggleCell (lib : Chroma Color) (st : State Color) (x y : Nat) :
    Except (State Color) (State Color) :=
  match st.1.getCell x y with
  | none => Except.error st
  | some cell =>
    let isAlive := xor cell.isAlive true
    let st1 : State Color :=
      if isAlive then
        let r := Math.random st.2
        let cell1 : Cell Color := { cell with isAlive := isAlive, color := lib.scale r.1 }
        ({ st.1 with cells := st.1.cells.set (y * st.1.dimX + x) cell1 }, r.2)
      else
        let cell1 : Cell Color := { cell with isAlive := isAlive, color := lib.black }
        ({ st.1 with cells := st.1.cells.set (y * st.1.dimX + x) cell1 }, st.2)
    match st1.1.show with
    | none => Except.error st1
    | some _ => Except.ok st1

/-- The body of the inner loop of `mousePressed`. -/
def mousePressedAt (lib : Chroma Color) (p : Pointer) (GRID_LINE_DIM GRID_COLUMN_DIM : ℚ)
    (y : Nat) (st : State Color) (x : Nat) : Except (State Color) (State Color) :=
  if mouseOver p GRID_LINE_DIM GRID_COLUMN_DIM x y then toggleCell lib st x y
  else Except.ok st

/-- The handler `mousePressed`, with the globals `universeWidth`, `universeHeight`
and `universe` it reads. -/
def mousePressed (lib : Chroma Color) (p : Pointer) (universeWidth universeHeight : Nat)
    (st : State Color) : Except (State Color) (State Color) :=
  if p.mouseButton = MouseButton.LEFT then
    let GRID_LINE_DIM : ℚ := (p.width : ℚ) / (universeWidth : ℚ)
    let GRID_COLUMN_DIM : ℚ := (p.height : ℚ) / (universeHeight : ℚ)
    (List.range universeWidth).foldlM
      (fun st y => (List.range universeHeight).foldlM
        (mousePressedAt lib p GRID_LINE_DIM GRID_COLUMN_DIM y) st) st
  else Except.ok st

/-- The state an operation leaves behind, whether it returned or threw. -/
def finalState (r : Except (State Color) (State Color)) : State Color :=
  match r with
  | Except.ok st => st
  | Except.error st => st

/-- Whether an operation returned normally. -/
def returned (r : Except (State Color) (State Color)) : Bool :=
  match r with
  | Except.ok _ => true
  | Except.error _ => false

/-! ## The state title -/

/-- The decimal digits of a natural number, most significant first; `0` is `"0"`. -/
def decimalDigits (n : Nat) : List Char :=
  if n = 0 then ['0'] else (Nat.digits 10 n).reverse.map Nat.digitChar

/-- The string that `+` makes of an integer-valued number such as `this.id` or
`this.generation`: a minus sign when it is negative, then the decimal digits of
its absolute value.  (Numbers of `10^21` and more, which print with an exponent,
are out of the range of both fields.) -/
def numberToString : Int → List Char
  | Int.ofNat m => decimalDigits m
  | Int.negSucc m => '-' :: decimalDigits (m + 1)

/-- Method `Universe.getStateTitle`:
`'S' + this.id + 'G' + this.generation + 'C' + (isColored ? '1' : '0')`. -/
def Universe.getStateTitle (u : Universe Color) (env : Env) : List Char :=
  ['S'] ++ numberToString u.id ++ ['G'] ++ numberToString (u.generation : Int) ++ ['C'] ++
    (if env.isColored then ['1'] else ['0'])

/-! ## Specification-side definitions -/

/-- The phrase "truncated to 32-bit signed" of the specification: the residue
modulo `2^32`, taken below zero when it is `2^31` or more. -/
def truncSigned32 (n : Int) : Int :=
  if n % 4294967296 < 2147483648 then n % 4294967296 else n % 4294967296 - 4294967296

/-- One round of the reference hash of the specification:
`h = (h*31 + codepoint(c)) truncated to 32-bit signed`. -/
def refHashStep (h : Int) (c : Char) : Int :=
  truncSigned32 (h * 31 + (c.toNat : Int))

/-- The reference hash of the specification: `h = 0`, then one round per character. -/
def refHash (s : List Char) : Int :=
  s.foldl refHashStep 0

/-- The bit-string of the specification: `'1'` if alive else `'0'`, in cell order. -/
def refBitString (cells : List (Cell Color)) : List Char :=
  cells.map (fun c => if c.isAlive then '1' else '0')

/-- The wrapped coordinates of the specification, with the mathematical modulo. -/
def wrapLeft (x : Int) (width : Nat) : Int := (x - 1 + width) % width

def wrapRight (x : Int) (width : Nat) : Int := (x + 1) % width

/-- The invariant of the specification: `cells.length == dimX * dimY`, and the
cell that `getCell(x, y)` returns for an in-range `(x, y)` has coordinates `(x, y)`. -/
def Universe.WellFormed (u : Universe Color) : Prop :=
  u.cells.length = u.dimX * u.dimY ∧
  ∀ x y : Nat, x < u.dimX → y < u.dimY →
    ∃ c, u.getCell x y = some c ∧ c.x = x ∧ c.y = y

/-- Whether the grid holds a live cell at `(x, y)`. -/
def Universe.liveAt (u : Universe Color) (x y : Int) : Bool :=
  match u.getCell x y with
  | some c => c.isAlive
  | none => false

/-- The eight offsets to the neighbours of a cell, row by row. -/
def neighbourOffsets : List (Int × Int) :=
  [(-1, -1), (0, -1), (1, -1), (-1, 0), (1, 0), (-1, 1), (0, 1), (1, 1)]

/-- The number of live cells among the eight toroidally wrapped neighbours of `(x, y)`. -/
def Universe.toroidalLiveCount (u : Universe Color) (x y : Int) : Nat :=
  neighbourOffsets.countP
    (fun d => u.liveAt ((x + d.1) % u.dimX) ((y + d.2) % u.dimY))

/-- The rule of the specification:
`(alive AND liveNeighbors ∈ {2,3}) OR (NOT alive AND liveNeighbors == 3)`. -/
def conwayRule (alive : Bool) (liveNeighbors : Nat) : Prop :=
  (alive = true ∧ (liveNeighbors = 2 ∨ liveNeighbors = 3)) ∨
  (alive = false ∧ liveNeighbors = 3)

instance (alive : Bool) (n : Nat) : Decidable (conwayRule alive n) := by
  unfold conwayRule
  infer_instance

/-- The relation between a cell and its successor that the specification asks
of a step: same coordinates, and alive exactly when the rule says so for the
live-neighbour count in the generation `u`. -/
def Universe.Evolves (u : Universe Color) (cell next : Cell Color) : Prop :=
  next.x = cell.x ∧ next.y = cell.y ∧
  (next.isAlive = true ↔ conwayRule cell.isAlive (u.toroidalLiveCount cell.x cell.y))

/-- The positions of the grid in row-major order: row `0` left to right, then
row `1`, and so on. -/
def gridPositions (dimX dimY : Nat) : List (Nat × Nat) :=
  (List.range dimY).flatMap (fun y => (List.range dimX).map (fun x => (x, y)))

/-- What `random(p)` promises of the cell it creates at a position: the
coordinates of the position, black when dead, and dead when `p` is not positive. -/
def RandomCellAt (lib : Chroma Color) (p : ℚ) (pos : Nat × Nat) (c : Cell Color) : Prop :=
  c.x = pos.1 ∧ c.y = pos.2 ∧ (c.isAlive = false → c.color = lib.black) ∧
  (p ≤ 0 → c.isAlive = false)

/-- The all-dead, all-black cell sequence of a `dimX × dimY` grid. -/
def deadCells (lib : Chroma Color) (dimX dimY : Nat) : List (Cell Color) :=
  (gridPositions dimX dimY).map (fun pos => Cell.mk pos.1 pos.2 false lib.black)

/-- What a manual toggle does to the cell it mutates: the coordinates stay, the
alive flag flips, and the colour is black when the cell is now dead and a
sample of the colour scale at a draw from `[0, 1)` when it is now alive. -/
def Flipped (lib : Chroma Color) (cell next : Cell Color) : Prop :=
  next.x = cell.x ∧ next.y = cell.y ∧ next.isAlive = !cell.isAlive ∧
  (next.isAlive = false → next.color = lib.black) ∧
  (next.isAlive = true → ∃ t : ℚ, 0 ≤ t ∧ t < 1 ∧ next.color = lib.scale t)

/-- The pointer lies strictly inside the rectangle that `show` paints for the
cell `(x, y)`: `rect(x * (width / dimX), y * (height / dimY), width / dimX, height / dimY)`. -/
def insideCellRect (p : Pointer) (dimX dimY x y : Nat) : Prop :=
  p.mouseX > x * ((p.width : ℚ) / (dimX : ℚ)) ∧
  p.mouseX < x * ((p.width : ℚ) / (dimX : ℚ)) + (p.width : ℚ) / (dimX : ℚ) ∧
  p.mouseY > y * ((p.height : ℚ) / (dimY : ℚ)) ∧
  p.mouseY < y * ((p.height : ℚ) / (dimY : ℚ)) + (p.height : ℚ) / (dimY : ℚ)

/-- The result of `n` consecutive calls of `nextGeneration()`; a throw ends the run. -/
def steps (lib : Chroma Color) : Nat → State Color → Except (State Color) (State Color)
  | 0, st => Except.ok st
  | n + 1, st =>
    match st.1.nextGeneration lib st.2 with
    | Except.ok st1 => steps lib n st1
    | Except.error e => Except.error e

/-- The number of live neighbours of a cell when a cell is alive exactly if its
column satisfies one condition and its row another: `a1 a2 a3` say whether the
column left of the cell, its own column and the column right of it satisfy the
column condition, `b1 b2 b3` the same for the row above, its own row and the
row below. -/
def productCount (a1 a2 a3 b1 b2 b3 : Bool) : Nat :=
  [(a1, b1), (a2, b1), (a3, b1), (a1, b2), (a3, b2), (a1, b3), (a2, b3), (a3, b3)].countP
    (fun p => p.1 && p.2)

/-- The coordinate `v` is `x0` or the one after it, modulo `n`. -/
def inPair (n : Nat) (x0 v : Int) : Bool :=
  decide (v = x0 ∨ v = (x0 + 1) % n)

/-- The coordinate `v` is `x0`, the one before it or the one after it, modulo `n`. -/
def inTriple (n : Nat) (x0 v : Int) : Bool :=
  decide (v = (x0 + -1) % n ∨ v = x0 ∨ v = (x0 + 1) % n)

/-- The coordinate `v` is `x0`. -/
def isAt (x0 v : Int) : Bool :=
  decide (v = x0)

/-- The live cells of `u` are exactly those whose column satisfies `fX` and whose
row satisfies `fY`. -/
def Universe.HasPattern (u : Universe Color) (fX fY : Int → Bool) : Prop :=
  ∀ c ∈ u.cells, c.isAlive = (fX c.x && fY c.y)

/-- The eight offsets to the neighbours of a cell in the clockwise order Up,
UpRight, Right, DownRight, Down, DownLeft, Left, UpLeft. -/
def clockwiseOffsets : List (Int × Int) :=
  [(0, -1), (1, -1), (1, 0), (1, 1), (0, 1), (-1, 1), (-1, 0), (-1, -1)]

/-- The colour of a neighbour if it exists and is alive. -/
def liveColour (neighbour : Option (Cell Color)) : Option Color :=
  match neighbour with
  | some n => if n.isAlive then some n.color else none
  | none => none

/-- The colours of the live cells among the eight toroidally wrapped neighbours
of `(x, y)`, in clockwise order. -/
def Universe.liveNeighbourColours (u : Universe Color) (x y : Int) : List Color :=
  clockwiseOffsets.filterMap
    (fun d => liveColour (u.getCell ((x + d.1) % u.dimX) ((y + d.2) % u.dimY)))

/-- The next colour of a cell as the specification gives it, `sample` being the
fresh sample of the colour scale: the average of the live neighbours' colours
when the cell is alive and stays alive, the sample when it is dead and becomes
alive, and otherwise its colour, kept if its lightness is below the threshold
`0.1` and darkened by the step `0.15` if not. -/
def nextColour (lib : Chroma Color) (u : Universe Color) (cell : Cell Color)
    (sample : Color) : Color :=
  if cell.isAlive = true ∧ conwayRule cell.isAlive (u.toroidalLiveCount cell.x cell.y) then
    lib.average (u.liveNeighbourColours cell.x cell.y)
  else if cell.isAlive = false ∧
      conwayRule cell.isAlive (u.toroidalLiveCount cell.x cell.y) then
    sample
  else if lib.lightness cell.color < 1 / 10 then cell.color
  else lib.darken cell.color (15 / 100)

/-- The relation between a cell and its successor in a step from `u`: it evolves
by the rule and takes the next colour of the specification, for a sample of the
scale at some draw from `[0, 1)`. -/
def Universe.EvolvesColoured (lib : Chroma Color) (u : Universe Color)
    (cell next : Cell Color) : Prop :=
  u.Evolves cell next ∧
  ∃ t : ℚ, 0 ≤ t ∧ t < 1 ∧ next.color = nextColour lib u cell (lib.scale t)

/-! ## Concrete inputs -/

/-- A colour library over the one-point colour type. -/
def unitChroma : Chroma Unit :=
  { scale := fun _ => (), black := (), average := fun _ => (), darken := fun _ _ => (),
    lightness := fun _ => 0 }

/-- An environment whose random source always returns one half. -/
def halfEnv : Env :=
  { isRunning := true, isColored := false, frameSpeed := 8,
    draws := fun _ => { val := 1 / 2, nonneg := by norm_num, lt_one := by norm_num },
    used := 0 }

/-- A colour library over numbered colours: black is `0`, the scale always
gives `7`, darkening subtracts one and the lightness is a tenth of the number. -/
def natChroma : Chroma Nat :=
  { scale := fun _ => 7, black := 0, average := fun l => l.sum / l.length,
    darken := fun c _ => c - 1, lightness := fun c => (c : ℚ) / 10 }

/-- The all-dead `2 × 2` universe. -/
def deadSquare : Universe Nat :=
  { dimX := 2, dimY := 2, generation := 5,
    cells := [Cell.mk 0 0 false 0, Cell.mk 1 0 false 0, Cell.mk 0 1 false 0,
      Cell.mk 1 1 false 0],
    id := 11 }

/-- A left click at `(30, 10)` on a `50 × 50` canvas. -/
def clickSquare : Pointer :=
  { width := 50, height := 50, mouseX := 30, mouseY := 10, mouseButton := MouseButton.LEFT }

/-- A left click at `(810, 110)` on a `1000 × 500` canvas, for which `setup` makes
a `40 × 20` grid of cells of `25 × 25` pixels. -/
def clickWide : Pointer :=
  { width := 1000, height := 500, mouseX := 810, mouseY := 110,
    mouseButton := MouseButton.LEFT }

/-- A `2 × 2` universe with the alive flags of `deadSquare` but other colours,
other coordinates, another counter and another stored id. -/
def paintedSquare : Universe Nat :=
  { dimX := 2, dimY := 2, generation := 0,
    cells := [Cell.mk 1 1 false 9, Cell.mk 0 0 false 3, Cell.mk 5 (-2) false 4,
      Cell.mk 0 1 false 0],
    id := -4 }

/-- The `1 × 1` universe whose single cell is alive. -/
def oneCellUniverse : Universe Unit :=
  { dimX := 1, dimY := 1, generation := 0, cells := [Cell.mk 0 0 true ()], id := 0 }

/-- The `3 × 3` universe in which exactly the centre cell and its four orthogonal
neighbours are alive (a plus shape); the colours, the counter and the id are
arbitrary. -/
def plusUniverse (colour : Nat → Color) (generation : Nat) (id : Int) : Universe Color :=
  { dimX := 3, dimY := 3, generation := generation,
    cells := [Cell.mk 0 0 false (colour 0), Cell.mk 1 0 true (colour 1),
      Cell.mk 2 0 false (colour 2), Cell.mk 0 1 true (colour 3), Cell.mk 1 1 true (colour 4),
      Cell.mk 2 1 true (colour 5), Cell.mk 0 2 false (colour 6), Cell.mk 1 2 true (colour 7),
      Cell.mk 2 2 false (colour 8)],
    id := id }

/-- The universe of the given size whose cell at `(x, y)` is alive exactly if
`alive x y`, all cells being black. -/
def patternUniverse (dimX dimY : Nat) (alive : Int → Int → Bool) : Universe Nat :=
  { dimX := dimX, dimY := dimY, generation := 0,
    cells := (gridPositions dimX dimY).map
      (fun pos => Cell.mk pos.1 pos.2 (alive pos.1 pos.2) 0),
    id := 0 }

/-- The `4 × 4` universe with a `2 × 2` block at `(3, 3)`, which wraps around both
edges: its live cells are `(3, 3)`, `(0, 3)`, `(3, 0)` and `(0, 0)`. -/
def blockUniverse : Universe Nat :=
  patternUniverse 4 4 (fun x y => inPair 4 3 x && inPair 4 3 y)

/-- The `5 × 5` universe with a horizontal blinker centred at `(0, 4)`, which wraps
around both edges: its live cells are `(4, 4)`, `(0, 4)` and `(1, 4)`. -/
def blinkerUniverse : Universe Nat :=
  patternUniverse 5 5 (fun x y => inTriple 5 0 x && isAt 4 y)

/-! ## The state hash: proofs -/

theorem land_self (n : Int) : Int.land n n = n := by
  cases n with
  | ofNat m => simp [Int.land]
  | negSucc m => simp [Int.land]

theorem toInt32_eq_truncSigned32 (n : Int) : toInt32 n = truncSigned32 n := by
  unfold toInt32 truncSigned32
  split <;> omega

theorem toInt32_range (n : Int) : -2147483648 ≤ toInt32 n ∧ toInt32 n ≤ 2147483647 := by
  unfold toInt32
  omega

theorem hashStep_eq_refHashStep (a : Int) (b : Char) : hashStep a b = refHashStep a b := by
  simp only [hashStep, refHashStep, and32, shiftLeft32, land_self,
    ← toInt32_eq_truncSigned32]
  unfold toInt32
  norm_num
  omega

theorem hashCode_eq_refHash (s : List Char) : hashCode s = refHash s := by
  unfold hashCode refHash
  have h : hashStep = refHashStep := by
    funext a b
    exact hashStep_eq_refHashStep a b
  rw [h]

theorem bitString_loop (cells : List (Cell Color)) (acc : List Char) :
    cells.foldl (fun id cell => id ++ [if cell.isAlive then '1' else '0']) acc
      = acc ++ refBitString cells := by
  induction cells generalizing acc with
  | nil => simp [refBitString]
  | cons c cs ih =>
    simp only [List.foldl_cons, ih]
    simp [refBitString]

theorem bitString_eq_refBitString (cells : List (Cell Color)) :
    bitString cells = refBitString cells := by
  unfold bitString
  rw [bitString_loop]
  simp

theorem hashCode_range (s : List Char) :
    -2147483648 ≤ hashCode s ∧ hashCode s ≤ 2147483647 := by
  induction s using List.reverseRecOn with
  | nil => simp [hashCode]
  | append_singleton s b _ =>
    have h : hashCode (s ++ [b]) = hashStep (hashCode s) b := by
      simp [hashCode, List.foldl_append]
    rw [h]
    unfold hashStep and32
    exact toInt32_range _

/-- C2. The id computed by `generateHashId` is the reference rolling hash of the
row-major bit-string of the cells; the shift-and-subtract round followed by
`a & a` agrees with the reference round `h*31 + code` wrapped to 32 bits at
every step of every string; and the id lies in `[-2^31, 2^31 - 1]`. -/
theorem generateHashId_refines_refHash (u : Universe Color) :
    u.generateHashId.id = refHash (refBitString u.cells) ∧
    (∀ (s : List Char) (b : Char),
      hashCode (s ++ [b]) = refHashStep (refHash s) b ∧
      hashStep (hashCode s) b = refHashStep (refHash s) b) ∧
    -2 ^ 31 ≤ u.generateHashId.id ∧ u.generateHashId.id ≤ 2 ^ 31 - 1 := by
  refine ⟨?_, ?_, ?_, ?_⟩
  · simp [Universe.generateHashId, hashCode_eq_refHash, bitString_eq_refBitString]
  · intro s b
    have h : hashCode (s ++ [b]) = hashStep (hashCode s) b := by
      simp [hashCode, List.foldl_append]
    rw [h, hashStep_eq_refHashStep, hashCode_eq_refHash]
    exact ⟨rfl, rfl⟩
  · have := (hashCode_range (bitString u.cells)).1
    simpa [Universe.generateHashId] using this
  · have := (hashCode_range (bitString u.cells)).2
    simpa [Universe.generateHashId] using this

/-! ## Neighbour coordinates -/

theorem leftX_eq (u : Universe Color) (c : Cell Color) (hx : 0 ≤ c.x) (hX : 1 ≤ u.dimX) :
    c.leftX u = wrapLeft c.x u.dimX := by
  unfold Cell.leftX wrapLeft
  exact Int.tmod_eq_emod (by omega) (by omega)

theorem rightX_eq (u : Universe Color) (c : Cell Color) (hx : 0 ≤ c.x) :
    c.rightX u = wrapRight c.x u.dimX := by
  unfold Cell.rightX wrapRight
  exact Int.tmod_eq_emod (by omega) (Int.ofNat_nonneg _)

theorem aboveY_eq (u : Universe Color) (c : Cell Color) (hy : 0 ≤ c.y) (hY : 1 ≤ u.dimY) :
    c.aboveY u = wrapLeft c.y u.dimY := by
  unfold Cell.aboveY wrapLeft
  exact Int.tmod_eq_emod (by omega) (by omega)

theorem belowY_eq (u : Universe Color) (c : Cell Color) (hy : 0 ≤ c.y) :
    c.belowY u = wrapRight c.y u.dimY := by
  unfold Cell.belowY wrapRight
  exact Int.tmod_eq_emod (by omega) (Int.ofNat_nonneg _)

theorem wrapLeft_range (x : Int) (width : Nat) (hw : 1 ≤ width) :
    0 ≤ wrapLeft x width ∧ wrapLeft x width < width := by
  unfold wrapLeft
  have h : (0 : Int) < width := by omega
  exact ⟨Int.emod_nonneg _ (by omega), Int.emod_lt_of_pos _ h⟩

theorem wrapRight_range (x : Int) (width : Nat) (hw : 1 ≤ width) :
    0 ≤ wrapRight x width ∧ wrapRight x width < width := by
  unfold wrapRight
  have h : (0 : Int) < width := by omega
  exact ⟨Int.emod_nonneg _ (by omega), Int.emod_lt_of_pos _ h⟩

theorem wrapLeft_zero (width : Nat) (hw : 1 ≤ width) : wrapLeft 0 width = width - 1 := by
  unfold wrapLeft
  have h : (0 : Int) - 1 + width = width - 1 := by omega
  rw [h]
  exact Int.emod_eq_of_lt (by omega) (by omega)

theorem neighbourIndices_eq (u : Universe Color) (c : Cell Color)
    (hX : 1 ≤ u.dimX) (hY : 1 ≤ u.dimY) (hx : 0 ≤ c.x) (hy : 0 ≤ c.y) :
    c.neighbourIndices u =
      [(c.x, wrapLeft c.y u.dimY), (wrapRight c.x u.dimX, wrapLeft c.y u.dimY),
       (wrapRight c.x u.dimX, c.y), (wrapRight c.x u.dimX, wrapRight c.y u.dimY),
       (c.x, wrapRight c.y u.dimY), (wrapLeft c.x u.dimX, wrapRight c.y u.dimY),
       (wrapLeft c.x u.dimX, c.y), (wrapLeft c.x u.dimX, wrapLeft c.y u.dimY)] := by
  simp only [Cell.neighbourIndices, Cell.IndexUp, Cell.IndexUpRight, Cell.IndexRight,
    Cell.IndexDownRight, Cell.IndexDown, Cell.IndexDownLeft, Cell.IndexLeft,
    Cell.IndexUpLeft, leftX_eq u c hx hX, rightX_eq u c hx, aboveY_eq u c hy hY,
    belowY_eq u c hy]

theorem getNeighbours_eq_map (u : Universe Color) (c : Cell Color) :
    c.getNeighbours u = (c.neighbourIndices u).map (fun p => u.getCell p.1 p.2) := by
  simp [Cell.getNeighbours, Cell.neighbourIndices]

theorem neighbourIndices_inRange (u : Universe Color) (c : Cell Color)
    (hX : 1 ≤ u.dimX) (hY : 1 ≤ u.dimY)
    (hx : 0 ≤ c.x ∧ c.x < u.dimX) (hy : 0 ≤ c.y ∧ c.y < u.dimY) :
    ∀ p ∈ c.neighbourIndices u, 0 ≤ p.1 ∧ p.1 < u.dimX ∧ 0 ≤ p.2 ∧ p.2 < u.dimY := by
  have hlr := wrapLeft_range c.x u.dimX hX
  have hrr := wrapRight_range c.x u.dimX hX
  have har := wrapLeft_range c.y u.dimY hY
  have hbr := wrapRight_range c.y u.dimY hY
  intro p hp
  rw [neighbourIndices_eq u c hX hY hx.1 hy.1] at hp
  simp only [List.mem_cons, List.mem_singleton, List.not_mem_nil, or_false] at hp
  rcases hp with h | h | h | h | h | h | h | h <;> subst h <;>
    exact ⟨by first | exact hx.1 | exact hlr.1 | exact hrr.1,
           by first | exact hx.2 | exact hlr.2 | exact hrr.2,
           by first | exact hy.1 | exact har.1 | exact hbr.1,
           by first | exact hy.2 | exact har.2 | exact hbr.2⟩

/-- C3. On a grid with at least one column and one row, the eight neighbour
coordinates of an in-range cell are the combinations of the wrapped `left`,
`right`, `above`, `below` in the order Up, UpRight, Right, DownRight, Down,
DownLeft, Left, UpLeft, `getNeighbours` reads the grid at exactly these, each of
them lies inside the grid, and the UpLeft neighbour of `(0, 0)` is
`(dimX - 1, dimY - 1)`. -/
theorem neighbour_coordinates_wrap (u : Universe Color) (c : Cell Color)
    (hX : 1 ≤ u.dimX) (hY : 1 ≤ u.dimY)
    (hx : 0 ≤ c.x ∧ c.x < u.dimX) (hy : 0 ≤ c.y ∧ c.y < u.dimY) :
    c.neighbourIndices u =
      [(c.x, wrapLeft c.y u.dimY), (wrapRight c.x u.dimX, wrapLeft c.y u.dimY),
       (wrapRight c.x u.dimX, c.y), (wrapRight c.x u.dimX, wrapRight c.y u.dimY),
       (c.x, wrapRight c.y u.dimY), (wrapLeft c.x u.dimX, wrapRight c.y u.dimY),
       (wrapLeft c.x u.dimX, c.y), (wrapLeft c.x u.dimX, wrapLeft c.y u.dimY)] ∧
    c.getNeighbours u = (c.neighbourIndices u).map (fun p => u.getCell p.1 p.2) ∧
    (∀ p ∈ c.neighbourIndices u, 0 ≤ p.1 ∧ p.1 < u.dimX ∧ 0 ≤ p.2 ∧ p.2 < u.dimY) ∧
    (c.x = 0 → c.y = 0 → c.IndexUpLeft u = ((u.dimX : Int) - 1, (u.dimY : Int) - 1)) := by
  have hl := leftX_eq u c hx.1 hX
  have ha := aboveY_eq u c hy.1 hY
  refine ⟨neighbourIndices_eq u c hX hY hx.1 hy.1, getNeighbours_eq_map u c,
    neighbourIndices_inRange u c hX hY hx hy, ?_⟩
  intro h0 h1
  simp only [Cell.IndexUpLeft, hl, ha, h0, h1, wrapLeft_zero _ hX, wrapLeft_zero _ hY]

/-- C3, at a concrete input: the cell `(0, 0)` of a `4 × 3` grid. -/
theorem neighbour_coordinates_wrap_witness :
    (Cell.mk 0 0 true ()).IndexUpLeft
      { dimX := 4, dimY := 3, generation := 0, cells := [], id := 0 } = (3, 2) :=
  (neighbour_coordinates_wrap
    { dimX := 4, dimY := 3, generation := 0, cells := [], id := 0 } (Cell.mk 0 0 true ())
    (by decide) (by decide) (by decide) (by decide)).2.2.2 rfl rfl

/-! ## The structural invariant -/

theorem getCell_natCast (u : Universe Color) (x y : Nat) :
    u.getCell x y = u.cells[y * u.dimX + x]? := by
  unfold Universe.getCell
  have h : (y : Int) * (u.dimX : Int) + (x : Int) = ((y * u.dimX + x : Nat) : Int) := by
    push_cast
    rfl
  simp only [h]
  rw [if_pos (Int.ofNat_nonneg _), Int.toNat_ofNat]

theorem index_lt (dimX dimY x y : Nat) (hx : x < dimX) (hy : y < dimY) :
    y * dimX + x < dimX * dimY := by
  have h : (y + 1) * dimX ≤ dimY * dimX := Nat.mul_le_mul_right dimX hy
  have h2 : (y + 1) * dimX = y * dimX + dimX := by ring
  have h3 : dimY * dimX = dimX * dimY := by ring
  omega

theorem index_split (dimX dimY i : Nat) (hi : i < dimX * dimY) :
    i % dimX < dimX ∧ i / dimX < dimY ∧ (i / dimX) * dimX + i % dimX = i := by
  have hpos : 0 < dimX := by
    rcases Nat.eq_zero_or_pos dimX with h | h
    · subst h
      simp at hi
    · exact h
  refine ⟨Nat.mod_lt _ hpos, ?_, ?_⟩
  · exact Nat.div_lt_of_lt_mul hi
  · rw [Nat.mul_comm]
    exact Nat.div_add_mod i dimX

theorem index_unique (dimX x y x' y' : Nat) (hx : x < dimX) (hx' : x' < dimX)
    (h : y * dimX + x = y' * dimX + x') : x = x' ∧ y = y' := by
  have h1 : (y * dimX + x) % dimX = x := by
    rw [Nat.add_comm, Nat.add_mul_mod_self_right, Nat.mod_eq_of_lt hx]
  have h2 : (y' * dimX + x') % dimX = x' := by
    rw [Nat.add_comm, Nat.add_mul_mod_self_right, Nat.mod_eq_of_lt hx']
  have hxx : x = x' := by rw [← h1, ← h2, h]
  subst hxx
  have hpos : 0 < dimX := by omega
  have h3 : y * dimX = y' * dimX := by omega
  exact ⟨rfl, Nat.eq_of_mul_eq_mul_right hpos h3⟩

/-- In a well-formed universe the cell stored at index `i` sits at column
`i % dimX` of row `i / dimX`. -/
theorem wf_coords_of_index {u : Universe Color} (h : u.WellFormed) (i : Nat)
    (c : Cell Color) (hc : u.cells[i]? = some c) :
    c.x = ((i % u.dimX : Nat) : Int) ∧ c.y = ((i / u.dimX : Nat) : Int) ∧
    i % u.dimX < u.dimX ∧ i / u.dimX < u.dimY := by
  have hi : i < u.cells.length := by
    rcases Nat.lt_or_ge i u.cells.length with hlt | hge
    · exact hlt
    · rw [List.getElem?_eq_none hge] at hc
      cases hc
  rw [h.1] at hi
  obtain ⟨h1, h2, h3⟩ := index_split u.dimX u.dimY i hi
  obtain ⟨c', hc', hx, hy⟩ := h.2 (i % u.dimX) (i / u.dimX) h1 h2
  rw [getCell_natCast, h3, hc] at hc'
  cases hc'
  exact ⟨hx, hy, h1, h2⟩

/-- In a well-formed universe every stored cell is the one `getCell` returns at
its own coordinates. -/
theorem wf_getCell_self {u : Universe Color} (h : u.WellFormed) (c : Cell Color)
    (hc : c ∈ u.cells) :
    u.getCell c.x c.y = some c ∧ 0 ≤ c.x ∧ c.x < u.dimX ∧ 0 ≤ c.y ∧ c.y < u.dimY := by
  obtain ⟨i, hi⟩ := List.getElem?_of_mem hc
  obtain ⟨hx, hy, h1, h2⟩ := wf_coords_of_index h i c hi
  have hi' : i < u.cells.length := by
    rcases Nat.lt_or_ge i u.cells.length with hlt | hge
    · exact hlt
    · rw [List.getElem?_eq_none hge] at hi
      cases hi
  rw [h.1] at hi'
  obtain ⟨_, _, h3⟩ := index_split u.dimX u.dimY i hi'
  rw [hx, hy]
  refine ⟨?_, Int.ofNat_nonneg _, by exact_mod_cast h1, Int.ofNat_nonneg _,
    by exact_mod_cast h2⟩
  rw [getCell_natCast, h3, hi]

theorem wf_getCell_int {u : Universe Color} (h : u.WellFormed) (x y : Int)
    (hx : 0 ≤ x ∧ x < u.dimX) (hy : 0 ≤ y ∧ y < u.dimY) :
    ∃ c, u.getCell x y = some c ∧ c.x = x ∧ c.y = y := by
  obtain ⟨c, hc, h1, h2⟩ := h.2 x.toNat y.toNat (by omega) (by omega)
  have ex : ((x.toNat : Nat) : Int) = x := Int.toNat_of_nonneg hx.1
  have ey : ((y.toNat : Nat) : Int) = y := Int.toNat_of_nonneg hy.1
  rw [ex, ey] at hc
  exact ⟨c, hc, by omega, by omega⟩

/-! ## Neighbour aggregates in a well-formed universe -/

theorem states_loop (l : List (Option (Cell Color))) (acc : List Bool)
    (h : ∀ o ∈ l, ∃ n, o = some n) :
    l.foldlM (fun states cell => cell.map (fun n => states ++ [n.isAlive])) acc
      = some (acc ++ l.map (fun o => match o with
          | some n => n.isAlive
          | none => false)) := by
  induction l generalizing acc with
  | nil => simp
  | cons o l ih =>
    obtain ⟨n, hn⟩ := h o (List.mem_cons_self _ _)
    subst hn
    simp only [List.foldlM_cons, Option.map_some', Option.bind_eq_bind, Option.some_bind]
    rw [ih _ (fun o ho => h o (List.mem_cons_of_mem _ ho))]
    simp

theorem colors_loop (l : List (Option (Cell Color))) (acc : List Color)
    (h : ∀ o ∈ l, ∃ n, o = some n) :
    ∃ colors, l.foldlM
      (fun colors cell => cell.map (fun n => if n.isAlive then colors ++ [n.color] else colors))
      acc = some colors := by
  induction l generalizing acc with
  | nil => exact ⟨acc, rfl⟩
  | cons o l ih =>
    obtain ⟨n, hn⟩ := h o (List.mem_cons_self _ _)
    subst hn
    simp only [List.foldlM_cons, Option.map_some', Option.bind_eq_bind, Option.some_bind]
    exact ih _ (fun o ho => h o (List.mem_cons_of_mem _ ho))

theorem wf_dims_pos {u : Universe Color} (h : u.WellFormed) (c : Cell Color)
    (hc : c ∈ u.cells) : 1 ≤ u.dimX ∧ 1 ≤ u.dimY := by
  have hlen : 0 < u.cells.length := List.length_pos_of_mem hc
  rw [h.1] at hlen
  constructor
  · rcases Nat.eq_zero_or_pos u.dimX with h0 | h0
    · rw [h0] at hlen
      simp at hlen
    · exact h0
  · rcases Nat.eq_zero_or_pos u.dimY with h0 | h0
    · rw [h0] at hlen
      simp at hlen
    · exact h0

theorem wf_neighbours_defined {u : Universe Color} (h : u.WellFormed) (c : Cell Color)
    (hX : 1 ≤ u.dimX) (hY : 1 ≤ u.dimY)
    (hx : 0 ≤ c.x ∧ c.x < u.dimX) (hy : 0 ≤ c.y ∧ c.y < u.dimY) :
    ∀ o ∈ c.getNeighbours u, ∃ n, o = some n := by
  intro o ho
  rw [getNeighbours_eq_map, List.mem_map] at ho
  obtain ⟨p, hp, hpo⟩ := ho
  obtain ⟨h1, h2, h3, h4⟩ := neighbourIndices_inRange u c hX hY hx hy p hp
  obtain ⟨n, hn, _, _⟩ := wf_getCell_int h p.1 p.2 ⟨h1, h2⟩ ⟨h3, h4⟩
  exact ⟨n, by rw [← hpo, hn]⟩

theorem wrapLeft_eq_offset (x : Int) (width : Nat) : wrapLeft x width = (x + -1) % width := by
  unfold wrapLeft
  have h : x - 1 + (width : Int) = (x + -1) + width := by ring
  rw [h, Int.add_emod_self]

theorem wrapRight_eq_offset (x : Int) (width : Nat) : wrapRight x width = (x + 1) % width := rfl

theorem wrap_self (x : Int) (width : Nat) (hx : 0 ≤ x ∧ x < width) : (x + 0) % width = x := by
  rw [Int.add_zero]
  exact Int.emod_eq_of_lt hx.1 hx.2

/-- In a well-formed universe the count of `getLiveNeighboursCount` is the number
of live cells among the eight toroidally wrapped neighbours. -/
theorem wf_liveNeighboursCount {u : Universe Color} (h : u.WellFormed) (c : Cell Color)
    (hX : 1 ≤ u.dimX) (hY : 1 ≤ u.dimY)
    (hx : 0 ≤ c.x ∧ c.x < u.dimX) (hy : 0 ≤ c.y ∧ c.y < u.dimY) :
    c.getLiveNeighboursCount u = some (u.toroidalLiveCount c.x c.y) := by
  unfold Cell.getLiveNeighboursCount Cell.getNeighboursState
  rw [states_loop _ _ (wf_neighbours_defined h c hX hY hx hy)]
  have hm : (c.getNeighbours u).map (fun o => match o with
          | some n => n.isAlive
          | none => false) = (c.neighbourIndices u).map (fun p => u.liveAt p.1 p.2) := by
    rw [getNeighbours_eq_map, List.map_map]
    rfl
  have ex := wrap_self c.x u.dimX hx
  have ey := wrap_self c.y u.dimY hy
  rw [hm, neighbourIndices_eq u c hX hY hx.1 hy.1]
  simp only [Option.map_some', List.nil_append, ← List.countP_eq_length_filter,
    List.countP_map, Universe.toroidalLiveCount, neighbourOffsets,
    wrapLeft_eq_offset, wrapRight_eq_offset, Option.some.injEq]
  simp only [List.countP_cons, List.countP_nil, Function.comp, id, ex, ey]
  omega

/-! ## One generation -/

theorem nextState_iff_rule (alive : Bool) (n : Nat) :
    (if alive then (n == 2 || n == 3) else (n == 3)) = true ↔ conwayRule alive n := by
  cases alive <;> simp [conwayRule]

/-- In a well-formed universe the `forEach` callback never throws, pushes exactly
one cell, and that cell evolves from `cell` by the rule; it touches no global
but the random source. -/
theorem nextCell_ok (lib : Chroma Color) {u : Universe Color} (h : u.WellFormed)
    (acc : List (Cell Color) × Env) (cell : Cell Color) (hc : cell ∈ u.cells) :
    ∃ next env1, Universe.nextCell lib u acc cell = Except.ok (acc.1 ++ [next], env1) ∧
      u.Evolves cell next ∧ env1.isRunning = acc.2.isRunning ∧
      env1.isColored = acc.2.isColored ∧ env1.frameSpeed = acc.2.frameSpeed ∧
      env1.draws = acc.2.draws := by
  obtain ⟨hself, hx0, hx1, hy0, hy1⟩ := wf_getCell_self h cell hc
  obtain ⟨hX, hY⟩ := wf_dims_pos h cell hc
  have hcount := wf_liveNeighboursCount h cell hX hY ⟨hx0, hx1⟩ ⟨hy0, hy1⟩
  obtain ⟨cols, hcols⟩ := colors_loop (cell.getNeighbours u) []
    (wf_neighbours_defined h cell hX hY ⟨hx0, hx1⟩ ⟨hy0, hy1⟩)
  have hcols' : cell.getLiveNeighboursColors u = some cols := hcols
  have hrule := nextState_iff_rule cell.isAlive (u.toroidalLiveCount cell.x cell.y)
  simp only [Universe.nextCell, hself, hcount, hcols']
  rcases Bool.eq_false_or_eq_true cell.isAlive with ha | ha
  · simp only [ha, if_true] at hrule ⊢
    split_ifs <;>
      exact ⟨_, _, rfl, ⟨rfl, rfl, by rw [ha]; exact hrule⟩, rfl, rfl, rfl, rfl⟩
  · simp only [ha, Bool.false_eq_true, if_false] at hrule ⊢
    split_ifs <;>
      exact ⟨_, _, rfl, ⟨rfl, rfl, by rw [ha]; exact hrule⟩, rfl, rfl, rfl, rfl⟩

/-- In a well-formed universe the `forEach` of `nextGeneration` runs to the end
and pushes one evolved cell per cell, in order. -/
theorem nextGen_loop (lib : Chroma Color) {u : Universe Color} (h : u.WellFormed)
    (l : List (Cell Color)) (hl : ∀ c ∈ l, c ∈ u.cells) (acc : List (Cell Color) × Env) :
    ∃ l1 env1, l.foldlM (Universe.nextCell lib u) acc = Except.ok (acc.1 ++ l1, env1) ∧
      List.Forall₂ u.Evolves l l1 ∧ env1.isRunning = acc.2.isRunning ∧
      env1.isColored = acc.2.isColored ∧ env1.frameSpeed = acc.2.frameSpeed ∧
      env1.draws = acc.2.draws := by
  induction l generalizing acc with
  | nil =>
    exact ⟨[], acc.2, by simp [pure, Except.pure], List.Forall₂.nil, rfl, rfl, rfl, rfl⟩
  | cons c l ih =>
    obtain ⟨next, env1, h1, hev, e1, e2, e3, e4⟩ :=
      nextCell_ok lib h acc c (hl c (List.mem_cons_self _ _))
    obtain ⟨l1, env2, h2, hall, f1, f2, f3, f4⟩ :=
      ih (fun c hc => hl c (List.mem_cons_of_mem _ hc)) (acc.1 ++ [next], env1)
    refine ⟨next :: l1, env2, ?_, List.Forall₂.cons hev hall, ?_, ?_, ?_, ?_⟩
    · rw [List.foldlM_cons, h1]
      simp only [bind, Except.bind]
      rw [h2]
      simp
    · rw [f1, e1]
    · rw [f2, e2]
    · rw [f3, e3]
    · rw [f4, e4]

theorem nextCell_error (lib : Chroma Color) (u : Universe Color)
    (acc : List (Cell Color) × Env) (c : Cell Color) (e : State Color)
    (hc : Universe.nextCell lib u acc c = Except.error e) : e.1 = u := by
  simp only [Universe.nextCell] at hc
  cases hg : u.getCell c.x c.y with
  | none =>
    simp only [hg, Except.error.injEq] at hc
    rw [← hc]
  | some here =>
    simp only [hg] at hc
    cases hn : here.getLiveNeighboursCount u with
    | none =>
      simp only [hn, Except.error.injEq] at hc
      rw [← hc]
    | some n =>
      simp only [hn] at hc
      cases hl : c.getLiveNeighboursColors u with
      | none =>
        simp only [hl, Except.error.injEq] at hc
        rw [← hc]
      | some cols =>
        simp only [hl] at hc
        split_ifs at hc

/-- A throw inside the `forEach` of `nextGeneration` leaves the universe as it was. -/
theorem nextGen_loop_error (lib : Chroma Color) (u : Universe Color)
    (l : List (Cell Color)) (acc : List (Cell Color) × Env) (st : State Color)
    (h : l.foldlM (Universe.nextCell lib u) acc = Except.error st) : st.1 = u := by
  induction l generalizing acc with
  | nil => simp [pure, Except.pure] at h
  | cons c l ih =>
    rw [List.foldlM_cons] at h
    cases hc : Universe.nextCell lib u acc c with
    | error e =>
      rw [hc] at h
      simp only [bind, Except.bind, Except.error.injEq] at h
      subst h
      exact nextCell_error lib u acc c e hc
    | ok a =>
      rw [hc] at h
      exact ih a h

/-- A step of a well-formed universe returns, with every cell evolved by the
rule, the counter one higher, and everything else as before. -/
theorem nextGeneration_ok (lib : Chroma Color) {u : Universe Color} (h : u.WellFormed)
    (env : Env) :
    ∃ l1 env1, u.nextGeneration lib env =
        Except.ok ({ u with cells := l1, generation := u.generation + 1 }, env1) ∧
      List.Forall₂ u.Evolves u.cells l1 ∧ env1.isRunning = env.isRunning ∧
      env1.isColored = env.isColored ∧ env1.frameSpeed = env.frameSpeed ∧
      env1.draws = env.draws := by
  obtain ⟨l1, env1, h1, hall, e⟩ := nextGen_loop lib h u.cells (fun _ hc => hc) ([], env)
  refine ⟨l1, env1, ?_, hall, e⟩
  unfold Universe.nextGeneration
  rw [h1]
  simp

theorem forall₂_getElem? {α β : Type} {R : α → β → Prop} {l1 : List α} {l2 : List β}
    (h : List.Forall₂ R l1 l2) (i : Nat) (a : α) (ha : l1[i]? = some a) :
    ∃ b, l2[i]? = some b ∧ R a b := by
  induction h generalizing i with
  | nil => simp at ha
  | cons hab _ ih =>
    cases i with
    | zero =>
      simp only [List.getElem?_cons_zero, Option.some.injEq] at ha
      subst ha
      exact ⟨_, by simp, hab⟩
    | succ j =>
      simp only [List.getElem?_cons_succ] at ha ⊢
      exact ih j ha

/-- Replacing every cell by one with the same coordinates keeps the invariant. -/
theorem wf_of_same_coords {u v : Universe Color} (h : u.WellFormed)
    (hX : v.dimX = u.dimX) (hY : v.dimY = u.dimY) (hlen : v.cells.length = u.cells.length)
    (hc : ∀ (i : Nat) (c : Cell Color), u.cells[i]? = some c →
      ∃ d : Cell Color, v.cells[i]? = some d ∧ d.x = c.x ∧ d.y = c.y) :
    v.WellFormed := by
  refine ⟨by rw [hlen, h.1, hX, hY], ?_⟩
  intro x y hx hy
  rw [hX] at hx
  rw [hY] at hy
  obtain ⟨c, hcell, h1, h2⟩ := h.2 x y hx hy
  rw [getCell_natCast] at hcell
  obtain ⟨d, hd, e1, e2⟩ := hc _ c hcell
  refine ⟨d, ?_, by rw [e1, h1], by rw [e2, h2]⟩
  rw [getCell_natCast, hX]
  exact hd

theorem nextGeneration_wf (lib : Chroma Color) {u : Universe Color} (h : u.WellFormed)
    (env : Env) :
    ∃ st, u.nextGeneration lib env = Except.ok st ∧ st.1.WellFormed ∧
      st.1.dimX = u.dimX ∧ st.1.dimY = u.dimY ∧ st.1.generation = u.generation + 1 ∧
      st.1.id = u.id := by
  obtain ⟨l1, env1, h1, hall, _⟩ := nextGeneration_ok lib h env
  refine ⟨_, h1, ?_, rfl, rfl, rfl, rfl⟩
  refine wf_of_same_coords h rfl rfl hall.length_eq.symm ?_
  intro i c hc
  obtain ⟨d, hd, hev⟩ := forall₂_getElem? hall i c hc
  exact ⟨d, hd, hev.1, hev.2.1⟩

theorem oneCellUniverse_wf : oneCellUniverse.WellFormed := by
  refine ⟨rfl, ?_⟩
  intro x y hx hy
  have hx0 : x = 0 := by
    have : x < 1 := hx
    omega
  have hy0 : y = 0 := by
    have : y < 1 := hy
    omega
  subst hx0
  subst hy0
  exact ⟨Cell.mk 0 0 true (), rfl, rfl, rfl⟩

/-- C1. In a universe whose cells obey the row-major layout, for every in-range
`(x, y)`: one `nextGeneration()` returns, and the cell then at `(x, y)` is alive
if and only if, before the step, the cell there was alive with 2 or 3 live
neighbours or dead with exactly 3, the neighbours being the eight toroidally
wrapped ones counted in the generation before the step. -/
theorem nextGeneration_applies_rule (lib : Chroma Color) (u : Universe Color) (env : Env)
    (h : u.WellFormed) (x y : Nat) (hx : x < u.dimX) (hy : y < u.dimY) :
    ∃ st before after, u.nextGeneration lib env = Except.ok st ∧
      u.getCell x y = some before ∧ st.1.getCell x y = some after ∧
      (after.isAlive = true ↔
        (before.isAlive = true ∧
          (u.toroidalLiveCount x y = 2 ∨ u.toroidalLiveCount x y = 3)) ∨
        (before.isAlive = false ∧ u.toroidalLiveCount x y = 3)) := by
  obtain ⟨l1, env1, h1, hall, _⟩ := nextGeneration_ok lib h env
  obtain ⟨c, hc, e1, e2⟩ := h.2 x y hx hy
  have hc' := hc
  rw [getCell_natCast] at hc'
  obtain ⟨d, hd, hev⟩ := forall₂_getElem? hall _ c hc'
  refine ⟨_, c, d, h1, hc, ?_, ?_⟩
  · rw [getCell_natCast]
    exact hd
  · have := hev.2.2
    rw [e1, e2] at this
    exact this

/-- C1, at a concrete input: the single live cell of a `1 × 1` universe, which
is its own eight neighbours. -/
theorem nextGeneration_applies_rule_witness :
    ∃ st before after,
      oneCellUniverse.nextGeneration unitChroma halfEnv = Except.ok st ∧
      oneCellUniverse.getCell ((0 : Nat) : Int) ((0 : Nat) : Int) = some before ∧
      st.1.getCell ((0 : Nat) : Int) ((0 : Nat) : Int) = some after ∧
      (after.isAlive = true ↔
        (before.isAlive = true ∧
          (oneCellUniverse.toroidalLiveCount ((0 : Nat) : Int) ((0 : Nat) : Int) = 2 ∨
           oneCellUniverse.toroidalLiveCount ((0 : Nat) : Int) ((0 : Nat) : Int) = 3)) ∨
        (before.isAlive = false ∧
          oneCellUniverse.toroidalLiveCount ((0 : Nat) : Int) ((0 : Nat) : Int) = 3)) :=
  nextGeneration_applies_rule unitChroma oneCellUniverse halfEnv oneCellUniverse_wf
    0 0 (by decide) (by decide)

/-! ## Random fill -/

theorem gridPositions_length (dimX dimY : Nat) :
    (gridPositions dimX dimY).length = dimY * dimX := by
  unfold gridPositions
  induction dimY with
  | zero => simp
  | succ n ih =>
    rw [List.range_succ, List.flatMap_append, List.length_append, ih]
    simp [Nat.succ_mul]

theorem gridPositions_getElem? (dimX dimY x y : Nat) (hx : x < dimX) (hy : y < dimY) :
    (gridPositions dimX dimY)[y * dimX + x]? = some (x, y) := by
  induction dimY with
  | zero => omega
  | succ n ih =>
    have hsplit : gridPositions dimX (n + 1) =
        gridPositions dimX n ++ (List.range dimX).map (fun x => (x, n)) := by
      unfold gridPositions
      rw [List.range_succ, List.flatMap_append]
      simp
    rw [hsplit]
    rcases Nat.lt_or_ge y n with hlt | hge
    · have hi : y * dimX + x < (gridPositions dimX n).length := by
        rw [gridPositions_length, Nat.mul_comm n dimX]
        exact index_lt dimX n x y hx hlt
      rw [List.getElem?_append_left hi]
      exact ih hlt
    · have hyn : y = n := by omega
      subst hyn
      have hi : (gridPositions dimX y).length ≤ y * dimX + x := by
        rw [gridPositions_length]
        omega
      rw [List.getElem?_append_right hi, gridPositions_length]
      have e : y * dimX + x - y * dimX = x := by omega
      rw [e, List.getElem?_map, List.getElem?_range hx]
      rfl

/-- The body of the inner loop of `random` pushes one cell, at `(x, y)`, and
touches no global but the random source. -/
theorem randomCell_spec (lib : Chroma Color) (p : ℚ) (y : Nat)
    (acc : List (Cell Color) × Env) (x : Nat) :
    ∃ c env1, Universe.randomCell lib p y acc x = (acc.1 ++ [c], env1) ∧
      RandomCellAt lib p (x, y) c ∧ env1.isRunning = acc.2.isRunning ∧
      env1.isColored = acc.2.isColored ∧ env1.frameSpeed = acc.2.frameSpeed ∧
      env1.draws = acc.2.draws := by
  unfold Universe.randomCell
  by_cases hlt : (Math.random acc.2).1 < p
  · simp only [hlt, decide_True, if_true]
    refine ⟨_, _, rfl, ⟨rfl, rfl, ?_, ?_⟩, rfl, rfl, rfl, rfl⟩
    · intro hdead
      cases hdead
    · intro hp
      have h0 : 0 ≤ (Math.random acc.2).1 := (acc.2.draws acc.2.used).nonneg
      exact absurd (lt_of_le_of_lt h0 hlt) (not_lt.mpr hp)
  · simp only [hlt, decide_False, Bool.false_eq_true, if_false]
    exact ⟨_, _, rfl, ⟨rfl, rfl, fun _ => rfl, fun _ => rfl⟩, rfl, rfl, rfl, rfl⟩

theorem random_row (lib : Chroma Color) (p : ℚ) (y : Nat) (xs : List Nat)
    (acc : List (Cell Color) × Env) :
    ∃ l env1, xs.foldl (Universe.randomCell lib p y) acc = (acc.1 ++ l, env1) ∧
      List.Forall₂ (RandomCellAt lib p) (xs.map (fun x => (x, y))) l ∧
      env1.isRunning = acc.2.isRunning ∧ env1.isColored = acc.2.isColored ∧
      env1.frameSpeed = acc.2.frameSpeed ∧ env1.draws = acc.2.draws := by
  induction xs generalizing acc with
  | nil => exact ⟨[], acc.2, by simp, List.Forall₂.nil, rfl, rfl, rfl, rfl⟩
  | cons x xs ih =>
    obtain ⟨c, env1, h1, hc, e1, e2, e3, e4⟩ := randomCell_spec lib p y acc x
    obtain ⟨l, env2, h2, hl, f1, f2, f3, f4⟩ := ih (acc.1 ++ [c], env1)
    refine ⟨c :: l, env2, ?_, List.Forall₂.cons hc hl, ?_, ?_, ?_, ?_⟩
    · rw [List.foldl_cons, h1, h2]
      simp
    · rw [f1, e1]
    · rw [f2, e2]
    · rw [f3, e3]
    · rw [f4, e4]

theorem random_rows (lib : Chroma Color) (p : ℚ) (dimX : Nat) (ys : List Nat)
    (acc : List (Cell Color) × Env) :
    ∃ l env1, ys.foldl
        (fun acc y => (List.range dimX).foldl (Universe.randomCell lib p y) acc) acc
        = (acc.1 ++ l, env1) ∧
      List.Forall₂ (RandomCellAt lib p)
        (ys.flatMap (fun y => (List.range dimX).map (fun x => (x, y)))) l ∧
      env1.isRunning = acc.2.isRunning ∧ env1.isColored = acc.2.isColored ∧
      env1.frameSpeed = acc.2.frameSpeed ∧ env1.draws = acc.2.draws := by
  induction ys generalizing acc with
  | nil => exact ⟨[], acc.2, by simp, List.Forall₂.nil, rfl, rfl, rfl, rfl⟩
  | cons y ys ih =>
    obtain ⟨l1, env1, h1, hl1, e1, e2, e3, e4⟩ := random_row lib p y (List.range dimX) acc
    obtain ⟨l2, env2, h2, hl2, f1, f2, f3, f4⟩ := ih (acc.1 ++ l1, env1)
    refine ⟨l1 ++ l2, env2, ?_, ?_, ?_, ?_, ?_, ?_⟩
    · rw [List.foldl_cons, h1, h2]
      simp
    · rw [List.flatMap_cons]
      exact List.rel_append hl1 hl2
    · rw [f1, e1]
    · rw [f2, e2]
    · rw [f3, e3]
    · rw [f4, e4]

/-- The effect of `random(p)`: the dimensions stay, the counter is `0`, the cells
are one per grid position in row-major order, the id is the hash of their
bit-string, and no global but the random source changes. -/
theorem random_spec (lib : Chroma Color) (u : Universe Color) (p : ℚ) (env : Env) :
    ∃ l env1, Universe.random lib u p env =
        ({ u with cells := l, generation := 0, id := hashCode (bitString l) }, env1) ∧
      List.Forall₂ (RandomCellAt lib p) (gridPositions u.dimX u.dimY) l ∧
      env1.isRunning = env.isRunning ∧ env1.isColored = env.isColored ∧
      env1.frameSpeed = env.frameSpeed ∧ env1.draws = env.draws := by
  obtain ⟨l, env1, h1, hl, e⟩ := random_rows lib p u.dimX (List.range u.dimY) ([], env)
  refine ⟨l, env1, ?_, hl, e⟩
  unfold Universe.random
  rw [h1]
  simp [Universe.generateHashId]

theorem wf_of_grid (lib : Chroma Color) (p : ℚ) (u : Universe Color)
    (h : List.Forall₂ (RandomCellAt lib p) (gridPositions u.dimX u.dimY) u.cells) :
    u.WellFormed := by
  refine ⟨?_, ?_⟩
  · rw [← h.length_eq, gridPositions_length, Nat.mul_comm]
  · intro x y hx hy
    obtain ⟨c, hc, hr⟩ := forall₂_getElem? h _ _ (gridPositions_getElem? _ _ x y hx hy)
    exact ⟨c, by rw [getCell_natCast]; exact hc, hr.1, hr.2.1⟩

theorem random_wf (lib : Chroma Color) (u : Universe Color) (p : ℚ) (env : Env) :
    (Universe.random lib u p env).1.WellFormed ∧
    (Universe.random lib u p env).1.dimX = u.dimX ∧
    (Universe.random lib u p env).1.dimY = u.dimY ∧
    (Universe.random lib u p env).1.generation = 0 ∧
    (Universe.random lib u p env).1.id =
      hashCode (bitString (Universe.random lib u p env).1.cells) := by
  obtain ⟨l, env1, h1, hl, _⟩ := random_spec lib u p env
  rw [h1]
  exact ⟨wf_of_grid lib p _ hl, rfl, rfl, rfl, rfl⟩

/-! ## The mouse handler -/

theorem interval_unique (L m : ℚ) (a b : Nat)
    (ha : m > a * L ∧ m < a * L + L) (hb : m > b * L ∧ m < b * L + L) : a = b := by
  have hL : 0 < L := by linarith [ha.1, ha.2]
  have key : ∀ c d : Nat, c < d → m < c * L + L → m > d * L → False := by
    intro c d hcd h1 h2
    have h3 : ((c : ℚ) + 1) ≤ (d : ℚ) := by exact_mod_cast hcd
    have h4 : ((c : ℚ) + 1) * L ≤ (d : ℚ) * L := mul_le_mul_of_nonneg_right h3 (le_of_lt hL)
    linarith
  rcases Nat.lt_trichotomy a b with h | h | h
  · exact (key a b h ha.2 hb.1).elim
  · exact h
  · exact (key b a h hb.2 ha.1).elim

theorem mouseOver_unique (p : Pointer) (L C : ℚ) (x y x1 y1 : Nat)
    (h : mouseOver p L C x y) (h1 : mouseOver p L C x1 y1) : x = x1 ∧ y = y1 :=
  ⟨interval_unique C p.mouseX x x1 ⟨h.2.2.1, h.2.2.2⟩ ⟨h1.2.2.1, h1.2.2.2⟩,
   interval_unique L p.mouseY y y1 ⟨h.1, h.2.1⟩ ⟨h1.1, h1.2.1⟩⟩

theorem foldlM_no_hit {α σ : Type} (f : σ → α → Except σ σ) (l : List α)
    (hmiss : ∀ b ∈ l, ∀ s, f s b = Except.ok s) (s : σ) :
    l.foldlM f s = Except.ok s := by
  induction l generalizing s with
  | nil => rfl
  | cons b l ih =>
    rw [List.foldlM_cons, hmiss b (List.mem_cons_self _ _) s]
    exact ih (fun c hc => hmiss c (List.mem_cons_of_mem _ hc)) s

theorem foldlM_unique_hit {α σ : Type} (f : σ → α → Except σ σ) (l : List α)
    (hnd : l.Nodup) (a : α) (ha : a ∈ l)
    (hmiss : ∀ b ∈ l, b ≠ a → ∀ s, f s b = Except.ok s) (s : σ) :
    l.foldlM f s = f s a := by
  induction l generalizing s with
  | nil => cases ha
  | cons b l ih =>
    rw [List.nodup_cons] at hnd
    rw [List.foldlM_cons]
    by_cases hba : b = a
    · subst hba
      have hrest : ∀ s1, l.foldlM f s1 = Except.ok s1 :=
        foldlM_no_hit f l (fun c hc => hmiss c (List.mem_cons_of_mem _ hc)
          (fun hcb => hnd.1 (hcb ▸ hc)))
      cases hf : f s b with
      | error e => rfl
      | ok s1 => exact hrest s1
    · rw [hmiss b (List.mem_cons_self _ _) hba s]
      have ha1 : a ∈ l := by
        rcases List.mem_cons.mp ha with h | h
        · exact absurd h.symm hba
        · exact h
      exact ih hnd.2 ha1 (fun c hc => hmiss c (List.mem_cons_of_mem _ hc)) s

/-- When the pointer is over the rectangle that the loops of `mousePressed`
test for the pair `(x, y)`, the handler does what its `if` body does for that
pair, once. -/
theorem mousePressed_hit (lib : Chroma Color) (p : Pointer)
    (universeWidth universeHeight : Nat)
    (st : State Color) (x y : Nat) (hb : p.mouseButton = MouseButton.LEFT)
    (hx : x < universeHeight) (hy : y < universeWidth)
    (hover : mouseOver p ((p.width : ℚ) / (universeWidth : ℚ))
      ((p.height : ℚ) / (universeHeight : ℚ)) x y) :
    mousePressed lib p universeWidth universeHeight st = toggleCell lib st x y := by
  unfold mousePressed
  rw [if_pos hb]
  simp only []
  rw [foldlM_unique_hit _ _ (List.nodup_range _) y (List.mem_range.mpr hy)]
  · rw [foldlM_unique_hit _ _ (List.nodup_range _) x (List.mem_range.mpr hx)]
    · unfold mousePressedAt
      rw [if_pos hover]
    · intro x1 _ hne s
      unfold mousePressedAt
      rw [if_neg]
      intro h1
      exact hne (mouseOver_unique p _ _ x1 y x y h1 hover).1
  · intro y1 _ hne s
    apply foldlM_no_hit
    intro x1 _ s1
    unfold mousePressedAt
    rw [if_neg]
    intro h1
    exact hne (mouseOver_unique p _ _ x1 y1 x y h1 hover).2

/-- When the pointer is over none of the rectangles that the loops test, or the
button is not the left one, the handler changes nothing. -/
theorem mousePressed_miss (lib : Chroma Color) (p : Pointer)
    (universeWidth universeHeight : Nat)
    (st : State Color)
    (hmiss : p.mouseButton = MouseButton.LEFT →
      ∀ x y, x < universeHeight → y < universeWidth →
      ¬ mouseOver p ((p.width : ℚ) / (universeWidth : ℚ))
        ((p.height : ℚ) / (universeHeight : ℚ)) x y) :
    mousePressed lib p universeWidth universeHeight st = Except.ok st := by
  unfold mousePressed
  by_cases hb : p.mouseButton = MouseButton.LEFT
  · rw [if_pos hb]
    apply foldlM_no_hit
    intro y hy s
    apply foldlM_no_hit
    intro x hx s1
    unfold mousePressedAt
    rw [if_neg (hmiss hb x y (List.mem_range.mp hx) (List.mem_range.mp hy))]
  · rw [if_neg hb]

theorem finalState_of_show (st1 : State Color) :
    finalState (match st1.1.show with
      | none => Except.error st1
      | some _ => Except.ok st1) = st1 := by
  cases st1.1.show <;> rfl

/-- The `if` body of `mousePressed`: it throws before changing anything when the
array read is `undefined`, and otherwise leaves, whether the painting throws or
not, the state in which the cell read is replaced by its flipped version and no
global but the random source has changed. -/
theorem toggleCell_spec (lib : Chroma Color) (st : State Color) (x y : Nat) :
    (st.1.getCell x y = none ∧ toggleCell lib st x y = Except.error st) ∨
    (∃ cell next env1, st.1.getCell x y = some cell ∧ Flipped lib cell next ∧
      finalState (toggleCell lib st x y) =
        ({ st.1 with cells := st.1.cells.set (y * st.1.dimX + x) next }, env1) ∧
      env1.isRunning = st.2.isRunning ∧ env1.isColored = st.2.isColored ∧
      env1.frameSpeed = st.2.frameSpeed ∧ env1.draws = st.2.draws) := by
  unfold toggleCell
  cases hg : st.1.getCell x y with
  | none => exact Or.inl ⟨rfl, rfl⟩
  | some cell =>
    right
    simp only [finalState_of_show]
    cases ha : cell.isAlive with
    | false =>
      refine ⟨cell, Cell.mk cell.x cell.y true (lib.scale (Math.random st.2).1),
        (Math.random st.2).2, rfl, ?_, ?_, rfl, rfl, rfl, rfl⟩
      · refine ⟨rfl, rfl, by simp [ha], ?_, ?_⟩
        · intro h
          cases h
        · intro _
          exact ⟨_, (st.2.draws st.2.used).nonneg, (st.2.draws st.2.used).lt_one, rfl⟩
      · simp
    | true =>
      refine ⟨cell, Cell.mk cell.x cell.y false lib.black, st.2, rfl, ?_, ?_,
        rfl, rfl, rfl, rfl⟩
      · refine ⟨rfl, rfl, by simp [ha], ?_, ?_⟩
        · intro _
          rfl
        · intro h
          cases h
      · simp

theorem mousePressed_cases (lib : Chroma Color) (p : Pointer)
    (universeWidth universeHeight : Nat) (st : State Color) :
    mousePressed lib p universeWidth universeHeight st = Except.ok st ∨
    ∃ x y, x < universeHeight ∧ y < universeWidth ∧
      mouseOver p ((p.width : ℚ) / (universeWidth : ℚ))
        ((p.height : ℚ) / (universeHeight : ℚ)) x y ∧
      mousePressed lib p universeWidth universeHeight st = toggleCell lib st x y := by
  by_cases h : p.mouseButton = MouseButton.LEFT ∧ ∃ x y, x < universeHeight ∧
      y < universeWidth ∧ mouseOver p ((p.width : ℚ) / (universeWidth : ℚ))
        ((p.height : ℚ) / (universeHeight : ℚ)) x y
  · obtain ⟨hb, x, y, hx, hy, hover⟩ := h
    exact Or.inr ⟨x, y, hx, hy, hover, mousePressed_hit lib p _ _ st x y hb hx hy hover⟩
  · left
    apply mousePressed_miss
    intro hb x y hx hy hover
    exact h ⟨hb, x, y, hx, hy, hover⟩

/-- The state a mouse press leaves behind: the one it found, or that state with
the cell read for the rectangle under the pointer replaced by its flipped version.
No global but the random source changes. -/
theorem mousePressed_final (lib : Chroma Color) (p : Pointer)
    (universeWidth universeHeight : Nat) (st : State Color) :
    ((finalState (mousePressed lib p universeWidth universeHeight st)).1 = st.1 ∨
      ∃ x y cell next, x < universeHeight ∧ y < universeWidth ∧
        mouseOver p ((p.width : ℚ) / (universeWidth : ℚ))
          ((p.height : ℚ) / (universeHeight : ℚ)) x y ∧
        st.1.getCell x y = some cell ∧ Flipped lib cell next ∧
        (finalState (mousePressed lib p universeWidth universeHeight st)).1
          = { st.1 with cells := st.1.cells.set (y * st.1.dimX + x) next }) ∧
    (finalState (mousePressed lib p universeWidth universeHeight st)).2.isRunning
      = st.2.isRunning ∧
    (finalState (mousePressed lib p universeWidth universeHeight st)).2.isColored
      = st.2.isColored ∧
    (finalState (mousePressed lib p universeWidth universeHeight st)).2.frameSpeed
      = st.2.frameSpeed := by
  rcases mousePressed_cases lib p universeWidth universeHeight st with
    h | ⟨x, y, hx, hy, hover, h⟩
  · rw [h]
    exact ⟨Or.inl rfl, rfl, rfl, rfl⟩
  · rw [h]
    rcases toggleCell_spec lib st x y with
      ⟨_, ht⟩ | ⟨cell, next, env1, hg, hf, ht, e1, e2, e3, _⟩
    · rw [ht]
      exact ⟨Or.inl rfl, rfl, rfl, rfl⟩
    · rw [ht]
      exact ⟨Or.inr ⟨x, y, cell, next, hx, hy, hover, hg, hf, rfl⟩, e1, e2, e3⟩

/-- C10. A mouse press changes at most one cell.  Whatever the pointer and the
state, the id, the counter, the dimensions and the number of cells are as
before, and the cells are either untouched or differ in the single cell read
for the rectangle under the pointer, whose coordinates stay, whose alive flag
is flipped and whose colour is black if it is now dead and a sample of the
scale if it is now alive.  When the left button is pressed over a tested
rectangle whose cell exists, that flip does happen. -/
theorem mousePressed_changes_one_cell (lib : Chroma Color) (p : Pointer)
    (universeWidth universeHeight : Nat) (st : State Color) :
    ((finalState (mousePressed lib p universeWidth universeHeight st)).1.id = st.1.id ∧
      (finalState (mousePressed lib p universeWidth universeHeight st)).1.generation
        = st.1.generation ∧
      (finalState (mousePressed lib p universeWidth universeHeight st)).1.dimX = st.1.dimX ∧
      (finalState (mousePressed lib p universeWidth universeHeight st)).1.dimY = st.1.dimY ∧
      (finalState (mousePressed lib p universeWidth universeHeight st)).1.cells.length
        = st.1.cells.length ∧
      ((finalState (mousePressed lib p universeWidth universeHeight st)).1.cells = st.1.cells ∨
        ∃ x y cell next, x < universeHeight ∧ y < universeWidth ∧
          mouseOver p ((p.width : ℚ) / (universeWidth : ℚ))
            ((p.height : ℚ) / (universeHeight : ℚ)) x y ∧
          st.1.getCell x y = some cell ∧ Flipped lib cell next ∧
          (finalState (mousePressed lib p universeWidth universeHeight st)).1.cells
            = st.1.cells.set (y * st.1.dimX + x) next ∧
          ∀ j, j ≠ y * st.1.dimX + x →
            (finalState (mousePressed lib p universeWidth universeHeight st)).1.cells[j]?
              = st.1.cells[j]?)) ∧
    (∀ x y cell, p.mouseButton = MouseButton.LEFT → x < universeHeight → y < universeWidth →
      mouseOver p ((p.width : ℚ) / (universeWidth : ℚ))
        ((p.height : ℚ) / (universeHeight : ℚ)) x y →
      st.1.getCell x y = some cell →
      ∃ next, Flipped lib cell next ∧
        (finalState (mousePressed lib p universeWidth universeHeight st)).1.cells
          = st.1.cells.set (y * st.1.dimX + x) next) := by
  refine ⟨?_, ?_⟩
  · rcases (mousePressed_final lib p universeWidth universeHeight st).1 with
      h | ⟨x, y, cell, next, hx, hy, hover, hg, hf, h⟩
    · rw [h]
      exact ⟨rfl, rfl, rfl, rfl, rfl, Or.inl rfl⟩
    · rw [h]
      refine ⟨rfl, rfl, rfl, rfl, by simp, Or.inr ⟨x, y, cell, next, hx, hy, hover,
        hg, hf, rfl, ?_⟩⟩
      intro j hj
      exact List.getElem?_set_ne (Ne.symm hj)
  · intro x y cell hb hx hy hover hg
    rw [mousePressed_hit lib p _ _ st x y hb hx hy hover]
    rcases toggleCell_spec lib st x y with ⟨hnone, _⟩ | ⟨cell1, next, env1, hg1, hf, ht, _⟩
    · rw [hnone] at hg
      cases hg
    · rw [hg] at hg1
      cases hg1
      rw [ht]
      exact ⟨next, hf, rfl⟩

theorem clickSquare_over : mouseOver clickSquare
    ((clickSquare.width : ℚ) / ((2 : Nat) : ℚ)) ((clickSquare.height : ℚ) / ((2 : Nat) : ℚ))
    1 0 := by
  unfold mouseOver clickSquare
  norm_num

/-- C10, at a concrete input: a left click at `(30, 10)` on a `50 × 50` canvas
showing the all-dead `2 × 2` universe flips the cell `(1, 0)`. -/
theorem mousePressed_changes_one_cell_witness :
    ∃ next, Flipped natChroma (Cell.mk 1 0 false 0) next ∧
      (finalState (mousePressed natChroma clickSquare 2 2 (deadSquare, halfEnv))).1.cells
        = deadSquare.cells.set (0 * deadSquare.dimX + 1) next :=
  (mousePressed_changes_one_cell natChroma clickSquare 2 2 (deadSquare, halfEnv)).2
    1 0 (Cell.mk 1 0 false 0) rfl (by decide) (by decide) clickSquare_over rfl

/-- C9, the code at a failing input.  On a `1000 × 500` canvas `setup` makes a
`40 × 20` grid.  A left click at `(810, 110)` lies strictly inside the rectangle
painted for the cell `(32, 4)`, which is the cell with `gridX = floor(810 / 25)`
and `gridY = floor(110 / 25)` and exists in the grid; yet `mousePressed` returns
with the state unchanged: its loops run `y` over the width and `x` over the
height, so no `x` beyond `19` is ever tested against `mouseX`. -/
theorem mousePressed_misses_wide_grid :
    universeWidthOf clickWide.width = 40 ∧ universeHeightOf clickWide.height = 20 ∧
    insideCellRect clickWide 40 20 32 4 ∧
    ⌊clickWide.mouseX / ((clickWide.width : ℚ) / ((40 : Nat) : ℚ))⌋ = 32 ∧
    ⌊clickWide.mouseY / ((clickWide.height : ℚ) / ((20 : Nat) : ℚ))⌋ = 4 ∧
    (∃ c, (setup natChroma clickWide.width clickWide.height halfEnv).1.getCell 32 4 = some c ∧
      c.x = 32 ∧ c.y = 4) ∧
    mousePressed natChroma clickWide (universeWidthOf clickWide.width)
        (universeHeightOf clickWide.height)
        (setup natChroma clickWide.width clickWide.height halfEnv)
      = Except.ok (setup natChroma clickWide.width clickWide.height halfEnv) := by
  have hw : universeWidthOf clickWide.width = 40 := by decide
  have hh : universeHeightOf clickWide.height = 20 := by decide
  refine ⟨hw, hh, ?_, ?_, ?_, ?_, ?_⟩
  · unfold insideCellRect clickWide
    norm_num
  · rw [Int.floor_eq_iff]
    unfold clickWide
    norm_num
  · rw [Int.floor_eq_iff]
    unfold clickWide
    norm_num
  · have hwf := (random_wf natChroma
      { dimX := 40, dimY := 20, generation := 0, cells := [], id := 0 }
      UNIVERSE_LIFE_PROBABILITY halfEnv).1
    exact hwf.2 32 4 (by decide) (by decide)
  · rw [hw, hh]
    apply mousePressed_miss
    intro _ x y hx hy hover
    unfold mouseOver clickWide at hover
    have hx' : (x : ℚ) ≤ 19 := by
      have : x ≤ 19 := by omega
      exact_mod_cast this
    have h4 := hover.2.2.2
    norm_num at h4
    linarith

theorem deadSquare_wf : deadSquare.WellFormed := by
  refine ⟨rfl, ?_⟩
  intro x y hx hy
  have hx1 : x = 0 ∨ x = 1 := by
    have : x < 2 := hx
    omega
  have hy1 : y = 0 ∨ y = 1 := by
    have : y < 2 := hy
    omega
  rcases hx1 with h | h <;> rcases hy1 with h1 | h1 <;> subst h <;> subst h1 <;>
    exact ⟨_, rfl, rfl, rfl⟩

theorem mousePressed_wf (lib : Chroma Color) (p : Pointer)
    (universeWidth universeHeight : Nat) (st : State Color) (h : st.1.WellFormed) :
    (finalState (mousePressed lib p universeWidth universeHeight st)).1.WellFormed := by
  rcases (mousePressed_final lib p universeWidth universeHeight st).1 with
    h1 | ⟨x, y, cell, next, _, _, _, hg, hf, h1⟩
  · rw [h1]
    exact h
  · rw [h1]
    rw [getCell_natCast] at hg
    refine wf_of_same_coords h rfl rfl (by simp) ?_
    intro i c hc
    by_cases hi : i = y * st.1.dimX + x
    · subst hi
      rw [hg] at hc
      cases hc
      have hlt : y * st.1.dimX + x < st.1.cells.length := by
        rcases Nat.lt_or_ge (y * st.1.dimX + x) st.1.cells.length with hlt | hge
        · exact hlt
        · rw [List.getElem?_eq_none hge] at hg
          cases hg
      exact ⟨next, by simp [List.getElem?_set_self, hlt], hf.1, hf.2.1⟩
    · refine ⟨c, ?_, rfl, rfl⟩
      show (st.1.cells.set (y * st.1.dimX + x) next)[i]? = some c
      rw [List.getElem?_set_ne (Ne.symm hi)]
      exact hc

/-- C4. The invariant "`cells.length == dimX * dimY`, and `getCell(x, y)` of an
in-range `(x, y)` has coordinates `(x, y)`" holds after construction and after
`random(p)` and `clear()` from any state; it is kept by `nextGeneration()`,
which then returns, and by a mouse press; none of them changes `dimX` or `dimY`. -/
theorem invariant_preserved (lib : Chroma Color) :
    (∀ (dimX dimY : Nat) (env : Env),
      (Universe.new lib dimX dimY env).1.WellFormed ∧
      (Universe.new lib dimX dimY env).1.dimX = dimX ∧
      (Universe.new lib dimX dimY env).1.dimY = dimY) ∧
    (∀ (u : Universe Color) (p : ℚ) (env : Env),
      (Universe.random lib u p env).1.WellFormed ∧
      (Universe.random lib u p env).1.dimX = u.dimX ∧
      (Universe.random lib u p env).1.dimY = u.dimY) ∧
    (∀ (u : Universe Color) (env : Env),
      (Universe.clear lib u env).1.WellFormed ∧
      (Universe.clear lib u env).1.dimX = u.dimX ∧
      (Universe.clear lib u env).1.dimY = u.dimY) ∧
    (∀ (u : Universe Color) (env : Env), u.WellFormed →
      ∃ st, u.nextGeneration lib env = Except.ok st ∧ st.1.WellFormed ∧
        st.1.dimX = u.dimX ∧ st.1.dimY = u.dimY) ∧
    (∀ (p : Pointer) (universeWidth universeHeight : Nat) (st : State Color),
      st.1.WellFormed →
      (finalState (mousePressed lib p universeWidth universeHeight st)).1.WellFormed ∧
      (finalState (mousePressed lib p universeWidth universeHeight st)).1.dimX = st.1.dimX ∧
      (finalState (mousePressed lib p universeWidth universeHeight st)).1.dimY = st.1.dimY) := by
  refine ⟨?_, ?_, ?_, ?_, ?_⟩
  · intro dimX dimY env
    have h := random_wf lib
      { dimX := dimX, dimY := dimY, generation := 0, cells := [], id := 0 }
      UNIVERSE_LIFE_PROBABILITY env
    exact ⟨h.1, h.2.1, h.2.2.1⟩
  · intro u p env
    have h := random_wf lib u p env
    exact ⟨h.1, h.2.1, h.2.2.1⟩
  · intro u env
    have h := random_wf lib u 0 env
    exact ⟨h.1, h.2.1, h.2.2.1⟩
  · intro u env h
    obtain ⟨st, h1, h2, h3, h4, _⟩ := nextGeneration_wf lib h env
    exact ⟨st, h1, h2, h3, h4⟩
  · intro p uw uh st h
    refine ⟨mousePressed_wf lib p uw uh st h, ?_⟩
    rcases (mousePressed_final lib p uw uh st).1 with
      h1 | ⟨x, y, cell, next, _, _, _, _, _, h1⟩
    · rw [h1]
      exact ⟨rfl, rfl⟩
    · rw [h1]
      exact ⟨rfl, rfl⟩

/-- C4, at concrete inputs: one step of the `1 × 1` universe with a live cell,
and a click on the all-dead `2 × 2` universe. -/
theorem invariant_preserved_witness :
    (∃ st, oneCellUniverse.nextGeneration unitChroma halfEnv = Except.ok st ∧
      st.1.WellFormed ∧ st.1.dimX = oneCellUniverse.dimX ∧ st.1.dimY = oneCellUniverse.dimY) ∧
    (finalState (mousePressed natChroma clickSquare 2 2 (deadSquare, halfEnv))).1.WellFormed :=
  ⟨(invariant_preserved unitChroma).2.2.2.1 oneCellUniverse halfEnv oneCellUniverse_wf,
   ((invariant_preserved natChroma).2.2.2.2 clickSquare 2 2 (deadSquare, halfEnv)
      deadSquare_wf).1⟩

/-- What a call of `nextGeneration()` leaves behind: on a throw the universe as
it was, on return the universe with new cells and the counter one higher. -/
theorem nextGeneration_final (lib : Chroma Color) (u : Universe Color) (env : Env) :
    (∃ st, u.nextGeneration lib env = Except.error st ∧ st.1 = u) ∨
    (∃ l env1, u.nextGeneration lib env =
      Except.ok ({ u with cells := l, generation := u.generation + 1 }, env1)) := by
  unfold Universe.nextGeneration
  cases h : u.cells.foldlM (Universe.nextCell lib u) ([], env) with
  | error st => exact Or.inl ⟨st, rfl, nextGen_loop_error lib u _ _ st h⟩
  | ok nextGen => exact Or.inr ⟨nextGen.1, nextGen.2, rfl⟩

theorem steps_generation (lib : Chroma Color) (n : Nat) (st : State Color)
    (h : st.1.WellFormed) :
    ∃ st1, steps lib n st = Except.ok st1 ∧ st1.1.WellFormed ∧
      st1.1.generation = st.1.generation + n := by
  induction n generalizing st with
  | zero => exact ⟨st, rfl, h, rfl⟩
  | succ n ih =>
    obtain ⟨st1, h1, hwf, _, _, hgen, _⟩ := nextGeneration_wf lib h st.2
    obtain ⟨st2, h2, hwf2, hgen2⟩ := ih st1 hwf
    refine ⟨st2, ?_, hwf2, ?_⟩
    · simp only [steps, h1]
      exact h2
    · rw [hgen2, hgen]
      omega

/-- C5. The generation counter is `0` after construction; a `nextGeneration()`
that returns leaves it one higher (and a throw leaves it as it was), and on a
well-formed universe the call does return; `random(p)` and `clear()` set it to
`0` from any value; a mouse press leaves it unchanged; and `n` consecutive steps
after a `random(p)` all return and leave it equal to `n`. -/
theorem generation_counter (lib : Chroma Color) :
    (∀ (dimX dimY : Nat) (env : Env), (Universe.new lib dimX dimY env).1.generation = 0) ∧
    (∀ (u : Universe Color) (env : Env),
      (finalState (u.nextGeneration lib env)).1.generation =
        if returned (u.nextGeneration lib env) = true then u.generation + 1
        else u.generation) ∧
    (∀ (u : Universe Color) (env : Env), u.WellFormed →
      ∃ st, u.nextGeneration lib env = Except.ok st ∧
        st.1.generation = u.generation + 1) ∧
    (∀ (u : Universe Color) (p : ℚ) (env : Env),
      (Universe.random lib u p env).1.generation = 0) ∧
    (∀ (u : Universe Color) (env : Env), (Universe.clear lib u env).1.generation = 0) ∧
    (∀ (p : Pointer) (universeWidth universeHeight : Nat) (st : State Color),
      (finalState (mousePressed lib p universeWidth universeHeight st)).1.generation
        = st.1.generation) ∧
    (∀ (u : Universe Color) (p : ℚ) (env : Env) (n : Nat),
      ∃ st, steps lib n (Universe.random lib u p env) = Except.ok st ∧
        st.1.generation = n) := by
  refine ⟨?_, ?_, ?_, ?_, ?_, ?_, ?_⟩
  · intro dimX dimY env
    exact (random_wf lib _ _ env).2.2.2.1
  · intro u env
    rcases nextGeneration_final lib u env with ⟨st, h, hu⟩ | ⟨l, env1, h⟩
    · rw [h]
      simp [finalState, returned, hu]
    · rw [h]
      simp [finalState, returned]
  · intro u env h
    obtain ⟨st, h1, _, _, _, hgen, _⟩ := nextGeneration_wf lib h env
    exact ⟨st, h1, hgen⟩
  · intro u p env
    exact (random_wf lib u p env).2.2.2.1
  · intro u env
    exact (random_wf lib u 0 env).2.2.2.1
  · intro p uw uh st
    rcases (mousePressed_final lib p uw uh st).1 with
      h1 | ⟨x, y, cell, next, _, _, _, _, _, h1⟩
    · rw [h1]
    · rw [h1]
  · intro u p env n
    have hr := random_wf lib u p env
    obtain ⟨st, h1, _, hgen⟩ := steps_generation lib n (Universe.random lib u p env) hr.1
    refine ⟨st, h1, ?_⟩
    rw [hgen, hr.2.2.2.1]
    omega

/-- C5, at a concrete input: one step of the `1 × 1` universe with a live cell. -/
theorem generation_counter_witness :
    ∃ st, oneCellUniverse.nextGeneration unitChroma halfEnv = Except.ok st ∧
      st.1.generation = oneCellUniverse.generation + 1 :=
  (generation_counter unitChroma).2.2.1 oneCellUniverse halfEnv oneCellUniverse_wf

/-- C7. Whatever the state, `nextGeneration()` leaves the id and the dimensions
of the universe as they were, whether it returns or throws: of the fields of
the universe only the cell sequence and the counter can differ afterwards. -/
theorem nextGeneration_frame (lib : Chroma Color) (u : Universe Color) (env : Env) :
    (finalState (u.nextGeneration lib env)).1.id = u.id ∧
    (finalState (u.nextGeneration lib env)).1.dimX = u.dimX ∧
    (finalState (u.nextGeneration lib env)).1.dimY = u.dimY ∧
    ∃ l g, (finalState (u.nextGeneration lib env)).1 =
      { u with cells := l, generation := g } := by
  rcases nextGeneration_final lib u env with ⟨st, h, hu⟩ | ⟨l, env1, h⟩
  · rw [h]
    show st.1.id = u.id ∧ st.1.dimX = u.dimX ∧ st.1.dimY = u.dimY ∧
      ∃ l g, st.1 = { u with cells := l, generation := g }
    rw [hu]
    exact ⟨rfl, rfl, rfl, u.cells, u.generation, rfl⟩
  · rw [h]
    exact ⟨rfl, rfl, rfl, l, u.generation + 1, rfl⟩

/-! ## The id and the alive bitmap -/

theorem refBitString_of_flags {Color1 Color2 : Type} (l1 : List (Cell Color1))
    (l2 : List (Cell Color2))
    (h : l1.map (fun c => c.isAlive) = l2.map (fun c => c.isAlive)) :
    refBitString l1 = refBitString l2 := by
  have e1 : refBitString l1 =
      (l1.map (fun c => c.isAlive)).map (fun b : Bool => if b then '1' else '0') := by
    simp [refBitString, List.map_map, Function.comp]
  have e2 : refBitString l2 =
      (l2.map (fun c => c.isAlive)).map (fun b : Bool => if b then '1' else '0') := by
    simp [refBitString, List.map_map, Function.comp]
  rw [e1, e2, h]

/-- C6. The id is a function of the alive/dead bitmap alone: two universes,
even over different colour types, whose alive flags agree position by position
get the same id from `generateHashId`, whatever their colours, coordinates,
dimensions, counters and previous ids; and right after construction,
`random(p)` or `clear()` the stored id is the hash of the bit-string of the
current cells. -/
theorem id_depends_on_bitmap_only {Color1 Color2 : Type} :
    (∀ (u1 : Universe Color1) (u2 : Universe Color2),
      u1.cells.map (fun c => c.isAlive) = u2.cells.map (fun c => c.isAlive) →
      u1.generateHashId.id = u2.generateHashId.id) ∧
    (∀ (lib : Chroma Color1) (dimX dimY : Nat) (env : Env),
      (Universe.new lib dimX dimY env).1.id =
        hashCode (refBitString (Universe.new lib dimX dimY env).1.cells)) ∧
    (∀ (lib : Chroma Color1) (u : Universe Color1) (p : ℚ) (env : Env),
      (Universe.random lib u p env).1.id =
        hashCode (refBitString (Universe.random lib u p env).1.cells)) ∧
    (∀ (lib : Chroma Color1) (u : Universe Color1) (env : Env),
      (Universe.clear lib u env).1.id =
        hashCode (refBitString (Universe.clear lib u env).1.cells)) := by
  refine ⟨?_, ?_, ?_, ?_⟩
  · intro u1 u2 h
    simp only [Universe.generateHashId, bitString_eq_refBitString]
    rw [refBitString_of_flags u1.cells u2.cells h]
  · intro lib dimX dimY env
    rw [← bitString_eq_refBitString]
    exact (random_wf lib _ _ env).2.2.2.2
  · intro lib u p env
    rw [← bitString_eq_refBitString]
    exact (random_wf lib u p env).2.2.2.2
  · intro lib u env
    rw [← bitString_eq_refBitString]
    exact (random_wf lib u 0 env).2.2.2.2

/-- C6, at a concrete input: two `2 × 2` universes with four dead cells each
and different colours, coordinates, counters and stored ids. -/
theorem id_depends_on_bitmap_only_witness :
    deadSquare.generateHashId.id = paintedSquare.generateHashId.id :=
  id_depends_on_bitmap_only.1 deadSquare paintedSquare rfl

/-! ## Clearing -/

theorem cells_of_random_zero (lib : Chroma Color) (positions : List (Nat × Nat))
    (l : List (Cell Color)) (h : List.Forall₂ (RandomCellAt lib 0) positions l) :
    l = positions.map (fun pos => Cell.mk pos.1 pos.2 false lib.black) := by
  induction h with
  | nil => rfl
  | @cons pos c _ _ hc _ ih =>
    have hdead : c.isAlive = false := hc.2.2.2 (le_refl 0)
    have hblack : c.color = lib.black := hc.2.2.1 hdead
    have hcell : c = Cell.mk pos.1 pos.2 false lib.black := by
      cases c
      simp only [Cell.mk.injEq]
      exact ⟨hc.1, hc.2.1, hdead, hblack⟩
    rw [List.map_cons, ← ih, hcell]

theorem refBitString_deadCells (lib : Chroma Color) (dimX dimY : Nat) :
    refBitString (deadCells lib dimX dimY) = List.replicate (dimX * dimY) '0' := by
  unfold refBitString deadCells
  rw [List.map_map]
  have h : ((fun c : Cell Color => if c.isAlive then '1' else '0') ∘
      fun pos : Nat × Nat => Cell.mk (pos.1 : Int) (pos.2 : Int) false lib.black)
      = fun _ => '0' := by
    funext pos
    simp
  rw [h, List.map_const', gridPositions_length, Nat.mul_comm]

/-- The universe that `clear()` leaves behind. -/
theorem clear_universe (lib : Chroma Color) (u : Universe Color) (env : Env) :
    (Universe.clear lib u env).1 =
      { dimX := u.dimX, dimY := u.dimY, generation := 0,
        cells := deadCells lib u.dimX u.dimY,
        id := hashCode (List.replicate (u.dimX * u.dimY) '0') } := by
  obtain ⟨l, env1, h1, hl, _⟩ := random_spec lib u 0 env
  have hcells := cells_of_random_zero lib _ l hl
  unfold Universe.clear
  simp only [h1]
  rw [bitString_eq_refBitString, hcells]
  have hb := refBitString_deadCells lib u.dimX u.dimY
  unfold deadCells at hb ⊢
  rw [hb]

/-- C8. From every state and for every sequence of random draws, `clear()`
yields the universe of the same dimensions whose `dimX * dimY` cells are all
dead and black, at their row-major coordinates, with counter `0` and with the
id of the all-`'0'` bit-string of length `dimX * dimY`, and it sets the running
flag to false; so a second `clear()` gives the same universe as the first. -/
theorem clear_resets (lib : Chroma Color) (u : Universe Color) (env : Env) :
    (Universe.clear lib u env).1 =
      { dimX := u.dimX, dimY := u.dimY, generation := 0,
        cells := deadCells lib u.dimX u.dimY,
        id := hashCode (List.replicate (u.dimX * u.dimY) '0') } ∧
    (Universe.clear lib u env).1.cells.length = u.dimX * u.dimY ∧
    (∀ c ∈ (Universe.clear lib u env).1.cells, c.isAlive = false ∧ c.color = lib.black) ∧
    (Universe.clear lib u env).1.generation = 0 ∧
    (Universe.clear lib u env).1.id = refHash (List.replicate (u.dimX * u.dimY) '0') ∧
    (Universe.clear lib u env).2.isRunning = false ∧
    (Universe.clear lib (Universe.clear lib u env).1 (Universe.clear lib u env).2).1
      = (Universe.clear lib u env).1 := by
  have h := clear_universe lib u env
  refine ⟨h, ?_, ?_, ?_, ?_, rfl, ?_⟩
  · rw [h]
    simp [deadCells, gridPositions_length, Nat.mul_comm]
  · rw [h]
    intro c hc
    simp only [deadCells, List.mem_map] at hc
    obtain ⟨pos, _, hpos⟩ := hc
    rw [← hpos]
    exact ⟨rfl, rfl⟩
  · rw [h]
  · rw [h, hashCode_eq_refHash]
  · rw [clear_universe lib (Universe.clear lib u env).1 (Universe.clear lib u env).2, h]


/-! ## The state title: proofs -/

theorem toDigitsCore_eq (fuel n : Nat) (ds : List Char) (h : n < fuel) :
    Nat.toDigitsCore 10 fuel n ds = decimalDigits n ++ ds := by
  induction fuel generalizing n ds with
  | zero => omega
  | succ fuel ih =>
    unfold Nat.toDigitsCore
    simp only []
    by_cases h0 : n / 10 = 0
    · rw [if_pos h0]
      have hlt : n < 10 := by omega
      unfold decimalDigits
      by_cases hn : n = 0
      · subst hn
        rfl
      · rw [if_neg hn, Nat.digits_of_lt 10 n hn hlt, Nat.mod_eq_of_lt hlt]
        rfl
    · rw [if_neg h0, ih (n / 10) _ (by omega)]
      have hn : n ≠ 0 := by
        intro hn
        subst hn
        exact h0 rfl
      have hd : Nat.digits 10 n = (n % 10) :: Nat.digits 10 (n / 10) :=
        Nat.digits_def' (by decide) (Nat.pos_of_ne_zero hn)
      unfold decimalDigits
      rw [if_neg h0, if_neg hn, hd]
      simp

theorem toDigits_eq (n : Nat) : Nat.toDigits 10 n = decimalDigits n := by
  unfold Nat.toDigits
  rw [toDigitsCore_eq (n + 1) n [] (by omega)]
  simp

theorem toString_nat_data (n : Nat) : (toString n).data = decimalDigits n := by
  show (Nat.repr n).data = decimalDigits n
  unfold Nat.repr
  rw [toDigits_eq]
  rfl

theorem toString_int_data (n : Int) : (toString n).data = numberToString n := by
  cases n with
  | ofNat m => exact toString_nat_data m
  | negSucc m =>
    show ("-" ++ toString (Nat.succ m)).data = numberToString (Int.negSucc m)
    rw [String.data_append, toString_nat_data]
    rfl


/-- C11. The title is the string `S`, the decimal id, `G`, the decimal
generation, `C`, and `1` if the colour mode is on else `0`, with the numbers
printed as the standard decimal numerals; two states with equal id, generation
and colour mode get equal titles whatever their cells, dimensions and colours. -/
theorem getStateTitle_format {Color2 : Type} (u : Universe Color) (env : Env) :
    u.getStateTitle env =
      ("S" ++ toString u.id ++ "G" ++ toString u.generation ++ "C" ++
        (if env.isColored then "1" else "0")).data ∧
    (∀ (u2 : Universe Color2) (env2 : Env), u2.id = u.id → u2.generation = u.generation →
      env2.isColored = env.isColored → u2.getStateTitle env2 = u.getStateTitle env) := by
  constructor
  · simp only [String.data_append, toString_int_data, toString_nat_data]
    unfold Universe.getStateTitle
    cases env.isColored <;> simp [numberToString]
  · intro u2 env2 h1 h2 h3
    unfold Universe.getStateTitle
    rw [h1, h2, h3]

/-- C11, at a concrete input: two universes with different cells and the same
id and generation, in the same colour mode. -/
theorem getStateTitle_format_witness :
    Universe.getStateTitle { paintedSquare with id := 11, generation := 5 } halfEnv
      = deadSquare.getStateTitle halfEnv :=
  (getStateTitle_format deadSquare halfEnv).2
    { paintedSquare with id := 11, generation := 5 } halfEnv rfl rfl rfl


/-! ## The plus shape on the `3 × 3` torus -/

theorem plusUniverse_wf (colour : Nat → Color) (generation : Nat) (id : Int) :
    (plusUniverse colour generation id).WellFormed := by
  refine ⟨rfl, ?_⟩
  intro x y hx hy
  have hx1 : x = 0 ∨ x = 1 ∨ x = 2 := by
    have : x < 3 := hx
    omega
  have hy1 : y = 0 ∨ y = 1 ∨ y = 2 := by
    have : y < 3 := hy
    omega
  rcases hx1 with h | h | h <;> rcases hy1 with h1 | h1 | h1 <;> subst h <;> subst h1 <;>
    exact ⟨_, rfl, rfl, rfl⟩

theorem plusUniverse_counts (colour : Nat → Color) (generation : Nat) (id : Int) :
    (plusUniverse colour generation id).cells.map
      (fun c => (plusUniverse colour generation id).toroidalLiveCount c.x c.y)
      = [5, 4, 5, 4, 4, 4, 5, 4, 5] := by
  simp [plusUniverse, Universe.toroidalLiveCount, neighbourOffsets, Universe.liveAt,
    Universe.getCell, List.countP_cons]


/-- The coordinates and alive flags after a step, read off the cells before it. -/
theorem evolves_shape (u : Universe Color) (l l1 : List (Cell Color))
    (h : List.Forall₂ u.Evolves l l1) :
    l1.map (fun c => (c.x, c.y, c.isAlive)) =
      l.map (fun c => (c.x, c.y,
        decide (conwayRule c.isAlive (u.toroidalLiveCount c.x c.y)))) := by
  induction h with
  | nil => rfl
  | @cons c d _ _ hcd _ ih =>
    rw [List.map_cons, List.map_cons, ih]
    have hflag : d.isAlive = decide (conwayRule c.isAlive (u.toroidalLiveCount c.x c.y)) := by
      rcases Bool.eq_false_or_eq_true d.isAlive with hd | hd
      · rw [hd]
        exact (decide_eq_true (hcd.2.2.mp hd)).symm
      · rw [hd]
        exact (decide_eq_false (fun hr => by
          have := hcd.2.2.mpr hr
          rw [hd] at this
          cases this)).symm
    rw [hcd.1, hcd.2.1, hflag]

/-- C12. On the `3 × 3` torus with exactly the centre cell and its four
orthogonal neighbours alive, whatever the colours, one `nextGeneration()`
returns and leaves all nine cells dead, each at its place: every live cell has
4 live neighbours and every dead corner has 5. -/
theorem plus_shape_dies (lib : Chroma Color) (colour : Nat → Color) (generation : Nat)
    (id : Int) (env : Env) :
    ∃ st, (plusUniverse colour generation id).nextGeneration lib env = Except.ok st ∧
      st.1.cells.map (fun c => (c.x, c.y, c.isAlive)) =
        [(0, 0, false), (1, 0, false), (2, 0, false), (0, 1, false), (1, 1, false),
         (2, 1, false), (0, 2, false), (1, 2, false), (2, 2, false)] ∧
      (plusUniverse colour generation id).cells.map
        (fun c => (c.isAlive, (plusUniverse colour generation id).toroidalLiveCount c.x c.y))
        = [(false, 5), (true, 4), (false, 5), (true, 4), (true, 4), (true, 4), (false, 5),
           (true, 4), (false, 5)] := by
  obtain ⟨l1, env1, h1, hall, _⟩ :=
    nextGeneration_ok lib (plusUniverse_wf colour generation id) env
  refine ⟨_, h1, ?_, ?_⟩
  · show l1.map (fun c => (c.x, c.y, c.isAlive)) = _
    rw [evolves_shape _ _ _ hall]
    have hc := plusUniverse_counts colour generation id
    simp only [plusUniverse, List.map_cons, List.map_nil, List.cons.injEq, and_true] at hc
    obtain ⟨c0, c1, c2, c3, c4, c5, c6, c7, c8⟩ := hc
    simp only [plusUniverse, List.map_cons, List.map_nil] at c0 c1 c2 c3 c4 c5 c6 c7 c8 ⊢
    simp [c0, c1, c2, c3, c4, c5, c6, c7, c8, conwayRule]
  · have hc := plusUniverse_counts colour generation id
    simp only [plusUniverse, List.map_cons, List.map_nil, List.cons.injEq, and_true] at hc
    obtain ⟨c0, c1, c2, c3, c4, c5, c6, c7, c8⟩ := hc
    simp only [plusUniverse, List.map_cons, List.map_nil] at c0 c1 c2 c3 c4 c5 c6 c7 c8 ⊢
    rw [c0, c1, c2, c3, c4, c5, c6, c7, c8]


/-! ## Patterns that are products of a column condition and a row condition -/

theorem mem_of_getCell (u : Universe Color) (x y : Int) (c : Cell Color)
    (h : u.getCell x y = some c) : c ∈ u.cells := by
  unfold Universe.getCell at h
  simp only [] at h
  split_ifs at h
  exact List.getElem?_mem h

theorem liveAt_of_pattern {u : Universe Color} (h : u.WellFormed) (fX fY : Int → Bool)
    (hp : u.HasPattern fX fY) (x y : Int)
    (hx : 0 ≤ x ∧ x < u.dimX) (hy : 0 ≤ y ∧ y < u.dimY) :
    u.liveAt x y = (fX x && fY y) := by
  obtain ⟨c, hc, h1, h2⟩ := wf_getCell_int h x y hx hy
  unfold Universe.liveAt
  rw [hc]
  simp only []
  rw [hp c (mem_of_getCell u x y c hc), h1, h2]

theorem emod_range (v : Int) (n : Nat) (hn : 1 ≤ n) : 0 ≤ v % n ∧ v % n < n := by
  have h : (0 : Int) < n := by omega
  exact ⟨Int.emod_nonneg _ (by omega), Int.emod_lt_of_pos _ h⟩

theorem count_of_pattern {u : Universe Color} (h : u.WellFormed) (fX fY : Int → Bool)
    (hp : u.HasPattern fX fY) (x y : Int) (hX : 1 ≤ u.dimX) (hY : 1 ≤ u.dimY)
    (hx : 0 ≤ x ∧ x < u.dimX) (hy : 0 ≤ y ∧ y < u.dimY) :
    u.toroidalLiveCount x y =
      productCount (fX ((x + -1) % u.dimX)) (fX x) (fX ((x + 1) % u.dimX))
        (fY ((y + -1) % u.dimY)) (fY y) (fY ((y + 1) % u.dimY)) := by
  have ex := wrap_self x u.dimX hx
  have ey := wrap_self y u.dimY hy
  have l1 := emod_range (x + -1) u.dimX hX
  have l2 := emod_range (x + 1) u.dimX hX
  have l3 := emod_range (y + -1) u.dimY hY
  have l4 := emod_range (y + 1) u.dimY hY
  unfold Universe.toroidalLiveCount neighbourOffsets productCount
  simp only [List.countP_cons, List.countP_nil, ex, ey]
  rw [liveAt_of_pattern h fX fY hp _ _ l1 l3, liveAt_of_pattern h fX fY hp _ _ hx l3,
    liveAt_of_pattern h fX fY hp _ _ l2 l3, liveAt_of_pattern h fX fY hp _ _ l1 hy,
    liveAt_of_pattern h fX fY hp _ _ l2 hy, liveAt_of_pattern h fX fY hp _ _ l1 l4,
    liveAt_of_pattern h fX fY hp _ _ hx l4, liveAt_of_pattern h fX fY hp _ _ l2 l4]

/-- One step of a well-formed universe whose live cells form a product pattern,
when the rule turns that pattern into the product pattern `gX`, `gY`: the step
returns, the cells keep their coordinates, and the live cells are now exactly
those of the new pattern. -/
theorem pattern_step (lib : Chroma Color) {u : Universe Color} (h : u.WellFormed)
    (fX fY gX gY : Int → Bool) (hp : u.HasPattern fX fY)
    (hrule : ∀ x y : Int, 0 ≤ x ∧ x < u.dimX → 0 ≤ y ∧ y < u.dimY →
      (conwayRule (fX x && fY y)
        (productCount (fX ((x + -1) % u.dimX)) (fX x) (fX ((x + 1) % u.dimX))
          (fY ((y + -1) % u.dimY)) (fY y) (fY ((y + 1) % u.dimY)))
        ↔ (gX x && gY y) = true))
    (env : Env) :
    ∃ st, u.nextGeneration lib env = Except.ok st ∧ st.1.WellFormed ∧
      st.1.dimX = u.dimX ∧ st.1.dimY = u.dimY ∧ st.1.HasPattern gX gY ∧
      st.1.cells.map (fun c => (c.x, c.y)) = u.cells.map (fun c => (c.x, c.y)) := by
  obtain ⟨l1, env1, h1, hall, _⟩ := nextGeneration_ok lib h env
  obtain ⟨st, h2, hwf, hdx, hdy, _, _⟩ := nextGeneration_wf lib h env
  rw [h1] at h2
  cases h2
  refine ⟨_, h1, hwf, hdx, hdy, ?_, ?_⟩
  · intro d hd
    have hd' : d ∈ l1 := hd
    obtain ⟨i, hi⟩ := List.getElem?_of_mem hd'
    have hlen : i < u.cells.length := by
      rw [hall.length_eq]
      rcases Nat.lt_or_ge i l1.length with hlt | hge
      · exact hlt
      · rw [List.getElem?_eq_none hge] at hi
        cases hi
    have hci : u.cells[i]? = some (u.cells[i]) := List.getElem?_eq_getElem hlen
    obtain ⟨d1, hd1, hev⟩ := forall₂_getElem? hall i _ hci
    rw [hi] at hd1
    cases hd1
    have hmem : u.cells[i] ∈ u.cells := List.getElem_mem hlen
    obtain ⟨_, hx0, hx1, hy0, hy1⟩ := wf_getCell_self h _ hmem
    obtain ⟨hX, hY⟩ := wf_dims_pos h _ hmem
    have hcount := count_of_pattern h fX fY hp _ _ hX hY ⟨hx0, hx1⟩ ⟨hy0, hy1⟩
    have hr := hrule _ _ ⟨hx0, hx1⟩ ⟨hy0, hy1⟩
    have hflag := hev.2.2
    rw [hp _ hmem, hcount, hr] at hflag
    rw [hev.1, hev.2.1]
    rcases Bool.eq_false_or_eq_true d.isAlive with hd2 | hd2
    · rw [hd2]
      exact (hflag.mp hd2).symm
    · rw [hd2]
      rcases Bool.eq_false_or_eq_true (gX u.cells[i].x && gY u.cells[i].y) with hg | hg
      · have := hflag.mpr hg
        rw [hd2] at this
        cases this
      · exact hg.symm
  · have hs := evolves_shape u _ _ hall
    have := congrArg (List.map (fun t : Int × Int × Bool => (t.1, t.2.1))) hs
    simpa [List.map_map, Function.comp] using this


theorem emod_wrap (v : Int) (n : Nat) (hn : 1 ≤ n) (h1 : -1 ≤ v) (h2 : v ≤ n) :
    v % (n : Int) = if v < 0 then v + n else if (n : Int) ≤ v then v - n else v := by
  split_ifs with ha hb
  · rw [← Int.add_emod_self]
    exact Int.emod_eq_of_lt (by omega) (by omega)
  · have e : v = (v - n) + n := by omega
    rw [e, Int.add_emod_self, ← e]
    exact Int.emod_eq_of_lt (by omega) (by omega)
  · exact Int.emod_eq_of_lt (by omega) (by omega)

theorem block_rule (a1 a2 a3 b1 b2 b3 : Bool) (ha : a2 = true → a1 ≠ a3)
    (hb : b2 = true → b1 ≠ b3) :
    conwayRule (a2 && b2) (productCount a1 a2 a3 b1 b2 b3) ↔ (a2 && b2) = true := by
  cases a1 <;> cases a2 <;> cases a3 <;> cases b1 <;> cases b2 <;> cases b3 <;>
    simp [conwayRule, productCount] at ha hb ⊢

theorem pair_bits (n : Nat) (hn : 3 ≤ n) (x0 x : Int) (h0 : 0 ≤ x0 ∧ x0 < n)
    (hx : 0 ≤ x ∧ x < n) :
    inPair n x0 x = true → inPair n x0 ((x + -1) % n) ≠ inPair n x0 ((x + 1) % n) := by
  unfold inPair
  rw [emod_wrap (x0 + 1) n (by omega) (by omega) (by omega),
    emod_wrap (x + -1) n (by omega) (by omega) (by omega),
    emod_wrap (x + 1) n (by omega) (by omega) (by omega)]
  simp only [decide_eq_true_eq, ne_eq, decide_eq_decide]
  split_ifs <;> omega


theorem patternUniverse_wf (dimX dimY : Nat) (alive : Int → Int → Bool) :
    (patternUniverse dimX dimY alive).WellFormed := by
  refine ⟨?_, ?_⟩
  · simp [patternUniverse, gridPositions_length, Nat.mul_comm]
  · intro x y hx hy
    rw [getCell_natCast]
    refine ⟨Cell.mk x y (alive x y) 0, ?_, rfl, rfl⟩
    show ((gridPositions dimX dimY).map _)[y * dimX + x]? = _
    rw [List.getElem?_map, gridPositions_getElem? dimX dimY x y hx hy]
    rfl

theorem patternUniverse_flags (dimX dimY : Nat) (alive : Int → Int → Bool) :
    ∀ c ∈ (patternUniverse dimX dimY alive).cells, c.isAlive = alive c.x c.y := by
  intro c hc
  simp only [patternUniverse, List.mem_map] at hc
  obtain ⟨pos, _, hpos⟩ := hc
  rw [← hpos]

/-- Two universes with the same product pattern and the same coordinates, cell
by cell, have the same alive flags, cell by cell. -/
theorem bitmap_of_pattern (u v : Universe Color) (fX fY : Int → Bool)
    (hu : u.HasPattern fX fY) (hv : v.HasPattern fX fY)
    (hc : v.cells.map (fun c => (c.x, c.y)) = u.cells.map (fun c => (c.x, c.y))) :
    v.cells.map (fun c => c.isAlive) = u.cells.map (fun c => c.isAlive) := by
  have e : ∀ w : Universe Color, w.HasPattern fX fY →
      w.cells.map (fun c => c.isAlive) =
        (w.cells.map (fun c => (c.x, c.y))).map (fun p => fX p.1 && fY p.2) := by
    intro w hw
    rw [List.map_map]
    exact List.map_congr_left (fun c hc => hw c hc)
  rw [e u hu, e v hv, hc]

/-- A product pattern that the rule maps to itself persists over any number of
steps, all of which return. -/
theorem stable_steps (lib : Chroma Color) (fX fY : Int → Bool) (dimX dimY : Nat)
    (hrule : ∀ x y : Int, 0 ≤ x ∧ x < dimX → 0 ≤ y ∧ y < dimY →
      (conwayRule (fX x && fY y)
        (productCount (fX ((x + -1) % dimX)) (fX x) (fX ((x + 1) % dimX))
          (fY ((y + -1) % dimY)) (fY y) (fY ((y + 1) % dimY)))
        ↔ (fX x && fY y) = true))
    (n : Nat) (st : State Color) (hwf : st.1.WellFormed) (hdx : st.1.dimX = dimX)
    (hdy : st.1.dimY = dimY) (hp : st.1.HasPattern fX fY) :
    ∃ st1, steps lib n st = Except.ok st1 ∧ st1.1.HasPattern fX fY ∧
      st1.1.cells.map (fun c => (c.x, c.y)) = st.1.cells.map (fun c => (c.x, c.y)) := by
  induction n generalizing st with
  | zero => exact ⟨st, rfl, hp, rfl⟩
  | succ n ih =>
    have hrule1 : ∀ x y : Int, 0 ≤ x ∧ x < st.1.dimX → 0 ≤ y ∧ y < st.1.dimY →
        (conwayRule (fX x && fY y)
          (productCount (fX ((x + -1) % st.1.dimX)) (fX x) (fX ((x + 1) % st.1.dimX))
            (fY ((y + -1) % st.1.dimY)) (fY y) (fY ((y + 1) % st.1.dimY)))
          ↔ (fX x && fY y) = true) := by
      rw [hdx, hdy]
      exact hrule
    obtain ⟨st1, h1, hwf1, hx1, hy1, hp1, hc1⟩ :=
      pattern_step lib hwf fX fY fX fY hp hrule1 st.2
    obtain ⟨st2, h2, hp2, hc2⟩ := ih st1 hwf1 (by rw [hx1, hdx]) (by rw [hy1, hdy]) hp1
    refine ⟨st2, ?_, hp2, by rw [hc2, hc1]⟩
    simp only [steps, h1]
    exact h2

theorem block_pattern_rule (dimX dimY : Nat) (hX : 3 ≤ dimX) (hY : 3 ≤ dimY) (x0 y0 : Int)
    (hx0 : 0 ≤ x0 ∧ x0 < dimX) (hy0 : 0 ≤ y0 ∧ y0 < dimY) :
    ∀ x y : Int, 0 ≤ x ∧ x < dimX → 0 ≤ y ∧ y < dimY →
      (conwayRule (inPair dimX x0 x && inPair dimY y0 y)
        (productCount (inPair dimX x0 ((x + -1) % dimX)) (inPair dimX x0 x)
          (inPair dimX x0 ((x + 1) % dimX))
          (inPair dimY y0 ((y + -1) % dimY)) (inPair dimY y0 y)
          (inPair dimY y0 ((y + 1) % dimY)))
        ↔ (inPair dimX x0 x && inPair dimY y0 y) = true) := by
  intro x y hx hy
  exact block_rule _ _ _ _ _ _ (pair_bits dimX hX x0 x hx0 hx) (pair_bits dimY hY y0 y hy0 hy)

/-- C13. Still life.  On a grid of at least `4 × 4`, if exactly the four cells of
the `2 × 2` block at `(x0, y0)`, taken modulo the dimensions, are alive, then
any number of `nextGeneration()` calls return and leave every cell at its place
with the alive flag it had. -/
theorem block_is_still_life (lib : Chroma Color) (u : Universe Color) (env : Env)
    (x0 y0 : Nat) (hX : 4 ≤ u.dimX) (hY : 4 ≤ u.dimY) (hx0 : x0 < u.dimX) (hy0 : y0 < u.dimY)
    (hwf : u.WellFormed)
    (hblock : ∀ c ∈ u.cells, c.isAlive = true ↔
      ((c.x = x0 ∨ c.x = ((x0 : Int) + 1) % u.dimX) ∧
       (c.y = y0 ∨ c.y = ((y0 : Int) + 1) % u.dimY)))
    (n : Nat) :
    ∃ st, steps lib n (u, env) = Except.ok st ∧
      st.1.cells.map (fun c => c.isAlive) = u.cells.map (fun c => c.isAlive) ∧
      st.1.cells.map (fun c => (c.x, c.y)) = u.cells.map (fun c => (c.x, c.y)) := by
  have hp : u.HasPattern (inPair u.dimX x0) (inPair u.dimY y0) := by
    intro c hc
    have h := hblock c hc
    rcases Bool.eq_false_or_eq_true c.isAlive with ha | ha
    · rw [ha]
      have := h.mp ha
      simp [inPair, this]
    · rw [ha]
      have hn : ¬ ((c.x = x0 ∨ c.x = ((x0 : Int) + 1) % u.dimX) ∧
          (c.y = y0 ∨ c.y = ((y0 : Int) + 1) % u.dimY)) := by
        intro hh
        have := h.mpr hh
        rw [ha] at this
        cases this
      simp only [inPair]
      rcases Bool.eq_false_or_eq_true
        (decide (c.x = x0 ∨ c.x = ((x0 : Int) + 1) % u.dimX) &&
          decide (c.y = y0 ∨ c.y = ((y0 : Int) + 1) % u.dimY)) with hb | hb
      · simp only [Bool.and_eq_true, decide_eq_true_eq] at hb
        exact absurd hb hn
      · exact hb.symm
  obtain ⟨st, h1, hp1, hc1⟩ := stable_steps lib (inPair u.dimX x0) (inPair u.dimY y0)
    u.dimX u.dimY
    (block_pattern_rule u.dimX u.dimY (by omega) (by omega) x0 y0
      ⟨by omega, by omega⟩ ⟨by omega, by omega⟩)
    n (u, env) hwf rfl rfl hp
  exact ⟨st, h1, bitmap_of_pattern u st.1 _ _ hp hp1 hc1, hc1⟩

theorem blockUniverse_block : ∀ c ∈ blockUniverse.cells, c.isAlive = true ↔
    ((c.x = (3 : Nat) ∨ c.x = (((3 : Nat) : Int) + 1) % blockUniverse.dimX) ∧
     (c.y = (3 : Nat) ∨ c.y = (((3 : Nat) : Int) + 1) % blockUniverse.dimY)) := by
  intro c hc
  rw [patternUniverse_flags 4 4 _ c hc]
  simp [inPair, blockUniverse, patternUniverse]

/-- C13, at a concrete input: the block that wraps around both edges of the
`4 × 4` torus, over seven steps. -/
theorem block_is_still_life_witness :
    ∃ st, steps natChroma 7 (blockUniverse, halfEnv) = Except.ok st ∧
      st.1.cells.map (fun c => c.isAlive) = blockUniverse.cells.map (fun c => c.isAlive) ∧
      st.1.cells.map (fun c => (c.x, c.y)) = blockUniverse.cells.map (fun c => (c.x, c.y)) :=
  block_is_still_life natChroma blockUniverse halfEnv 3 3 (by decide) (by decide) (by decide)
    (by decide) (patternUniverse_wf 4 4 _) blockUniverse_block 7


/-! ## The blinker -/

theorem hasPattern_iff (u : Universe Color) (fX fY : Int → Bool) :
    u.HasPattern fX fY ↔
      ∀ c ∈ u.cells, (c.isAlive = true ↔ (fX c.x = true ∧ fY c.y = true)) := by
  constructor
  · intro h c hc
    rw [h c hc, Bool.and_eq_true]
  · intro h c hc
    have hc1 := h c hc
    rw [← Bool.and_eq_true] at hc1
    rcases Bool.eq_false_or_eq_true c.isAlive with ha | ha
    · rw [ha]
      exact (hc1.mp ha).symm
    · rw [ha]
      rcases Bool.eq_false_or_eq_true (fX c.x && fY c.y) with hb | hb
      · have := hc1.mpr hb
        rw [ha] at this
        cases this
      · exact hb.symm

theorem blinker_rule (a1 a2 a3 b1 b2 b3 : Bool) (h12 : ¬ (b1 = true ∧ b2 = true))
    (h13 : ¬ (b1 = true ∧ b3 = true)) (h23 : ¬ (b2 = true ∧ b3 = true)) :
    conwayRule (a2 && b2) (productCount a1 a2 a3 b1 b2 b3) ↔
      ((a1 && a2 && a3) && (b1 || b2 || b3)) = true := by
  cases a1 <;> cases a2 <;> cases a3 <;> cases b1 <;> cases b2 <;> cases b3 <;>
    simp [conwayRule, productCount] at h12 h13 h23 ⊢

theorem blinker_rule_turned (a1 a2 a3 b1 b2 b3 : Bool) (h12 : ¬ (a1 = true ∧ a2 = true))
    (h13 : ¬ (a1 = true ∧ a3 = true)) (h23 : ¬ (a2 = true ∧ a3 = true)) :
    conwayRule (a2 && b2) (productCount a1 a2 a3 b1 b2 b3) ↔
      ((a1 || a2 || a3) && (b1 && b2 && b3)) = true := by
  cases a1 <;> cases a2 <;> cases a3 <;> cases b1 <;> cases b2 <;> cases b3 <;>
    simp [conwayRule, productCount] at h12 h13 h23 ⊢

theorem triple_all (n : Nat) (hn : 4 ≤ n) (x0 x : Int) (h0 : 0 ≤ x0 ∧ x0 < n)
    (hx : 0 ≤ x ∧ x < n) :
    (inTriple n x0 ((x + -1) % n) && inTriple n x0 x && inTriple n x0 ((x + 1) % n))
      = isAt x0 x := by
  unfold inTriple isAt
  rw [emod_wrap (x0 + 1) n (by omega) (by omega) (by omega),
    emod_wrap (x0 + -1) n (by omega) (by omega) (by omega),
    emod_wrap (x + -1) n (by omega) (by omega) (by omega),
    emod_wrap (x + 1) n (by omega) (by omega) (by omega)]
  rw [Bool.eq_iff_iff]
  simp only [Bool.and_eq_true, decide_eq_true_eq]
  split_ifs <;> omega

theorem at_any (n : Nat) (hn : 1 ≤ n) (x0 x : Int) (h0 : 0 ≤ x0 ∧ x0 < n)
    (hx : 0 ≤ x ∧ x < n) :
    (isAt x0 ((x + -1) % n) || isAt x0 x || isAt x0 ((x + 1) % n)) = inTriple n x0 x := by
  unfold inTriple isAt
  rw [emod_wrap (x0 + 1) n (by omega) (by omega) (by omega),
    emod_wrap (x0 + -1) n (by omega) (by omega) (by omega),
    emod_wrap (x + -1) n (by omega) (by omega) (by omega),
    emod_wrap (x + 1) n (by omega) (by omega) (by omega)]
  rw [Bool.eq_iff_iff]
  simp only [Bool.or_eq_true, decide_eq_true_eq]
  split_ifs <;> omega

theorem at_most_once (n : Nat) (hn : 3 ≤ n) (x0 x : Int) (hx : 0 ≤ x ∧ x < n) :
    ¬ (isAt x0 ((x + -1) % n) = true ∧ isAt x0 x = true) ∧
    ¬ (isAt x0 ((x + -1) % n) = true ∧ isAt x0 ((x + 1) % n) = true) ∧
    ¬ (isAt x0 x = true ∧ isAt x0 ((x + 1) % n) = true) := by
  unfold isAt
  rw [emod_wrap (x + -1) n (by omega) (by omega) (by omega),
    emod_wrap (x + 1) n (by omega) (by omega) (by omega)]
  simp only [decide_eq_true_eq]
  split_ifs <;> omega


/-- C14. Oscillator.  On a grid of at least `5 × 5`, if exactly the three
horizontal cells `(x0 - 1, y0)`, `(x0, y0)`, `(x0 + 1, y0)`, taken modulo the
dimensions, are alive, then one `nextGeneration()` returns and leaves exactly
the three vertical cells `(x0, y0 - 1)`, `(x0, y0)`, `(x0, y0 + 1)` alive, and a
second one returns and leaves every cell with the alive flag it had at the
start. -/
theorem blinker_oscillates (lib : Chroma Color) (u : Universe Color) (env : Env)
    (x0 y0 : Nat) (hX : 5 ≤ u.dimX) (hY : 5 ≤ u.dimY) (hx0 : x0 < u.dimX) (hy0 : y0 < u.dimY)
    (hwf : u.WellFormed)
    (hline : ∀ c ∈ u.cells, c.isAlive = true ↔
      ((c.x = ((x0 : Int) - 1) % u.dimX ∨ c.x = x0 ∨ c.x = ((x0 : Int) + 1) % u.dimX) ∧
       c.y = y0)) :
    ∃ st1 st2, u.nextGeneration lib env = Except.ok st1 ∧
      (∀ c ∈ st1.1.cells, c.isAlive = true ↔
        (c.x = x0 ∧
         (c.y = ((y0 : Int) - 1) % u.dimY ∨ c.y = y0 ∨ c.y = ((y0 : Int) + 1) % u.dimY))) ∧
      st1.1.cells.map (fun c => (c.x, c.y)) = u.cells.map (fun c => (c.x, c.y)) ∧
      st1.1.nextGeneration lib st1.2 = Except.ok st2 ∧
      steps lib 2 (u, env) = Except.ok st2 ∧
      st2.1.cells.map (fun c => c.isAlive) = u.cells.map (fun c => c.isAlive) ∧
      st2.1.cells.map (fun c => (c.x, c.y)) = u.cells.map (fun c => (c.x, c.y)) := by
  have hxr : (0 : Int) ≤ x0 ∧ (x0 : Int) < u.dimX := ⟨by omega, by omega⟩
  have hyr : (0 : Int) ≤ y0 ∧ (y0 : Int) < u.dimY := ⟨by omega, by omega⟩
  have hp : u.HasPattern (inTriple u.dimX x0) (isAt y0) := by
    rw [hasPattern_iff]
    intro c hc
    rw [hline c hc]
    simp [inTriple, isAt, Int.sub_eq_add_neg]
  have hrule1 : ∀ x y : Int, 0 ≤ x ∧ x < u.dimX → 0 ≤ y ∧ y < u.dimY →
      (conwayRule (inTriple u.dimX x0 x && isAt y0 y)
        (productCount (inTriple u.dimX x0 ((x + -1) % u.dimX)) (inTriple u.dimX x0 x)
          (inTriple u.dimX x0 ((x + 1) % u.dimX))
          (isAt y0 ((y + -1) % u.dimY)) (isAt y0 y) (isAt y0 ((y + 1) % u.dimY)))
        ↔ (isAt x0 x && inTriple u.dimY y0 y) = true) := by
    intro x y hx hy
    obtain ⟨h12, h13, h23⟩ := at_most_once u.dimY (by omega) y0 y hy
    rw [blinker_rule _ _ _ _ _ _ h12 h13 h23, triple_all u.dimX (by omega) x0 x hxr hx,
      at_any u.dimY (by omega) y0 y hyr hy]
  obtain ⟨st1, h1, hwf1, hx1, hy1, hp1, hc1⟩ :=
    pattern_step lib hwf _ _ (isAt x0) (inTriple u.dimY y0) hp hrule1 env
  have hrule2 : ∀ x y : Int, 0 ≤ x ∧ x < st1.1.dimX → 0 ≤ y ∧ y < st1.1.dimY →
      (conwayRule (isAt x0 x && inTriple u.dimY y0 y)
        (productCount (isAt x0 ((x + -1) % st1.1.dimX)) (isAt x0 x)
          (isAt x0 ((x + 1) % st1.1.dimX))
          (inTriple u.dimY y0 ((y + -1) % st1.1.dimY)) (inTriple u.dimY y0 y)
          (inTriple u.dimY y0 ((y + 1) % st1.1.dimY)))
        ↔ (inTriple u.dimX x0 x && isAt y0 y) = true) := by
    rw [hx1, hy1]
    intro x y hx hy
    obtain ⟨h12, h13, h23⟩ := at_most_once u.dimX (by omega) x0 x hx
    rw [blinker_rule_turned _ _ _ _ _ _ h12 h13 h23, triple_all u.dimY (by omega) y0 y hyr hy,
      at_any u.dimX (by omega) x0 x hxr hx]
  obtain ⟨st2, h2, _, _, _, hp2, hc2⟩ :=
    pattern_step lib hwf1 _ _ (inTriple u.dimX x0) (isAt y0) hp1 hrule2 st1.2
  refine ⟨st1, st2, h1, ?_, hc1, h2, ?_, ?_, by rw [hc2, hc1]⟩
  · intro c hc
    rw [(hasPattern_iff _ _ _).mp hp1 c hc]
    simp [inTriple, isAt, Int.sub_eq_add_neg]
  · simp only [steps, h1, h2]
  · exact bitmap_of_pattern u st2.1 _ _ hp hp2 (by rw [hc2, hc1])

theorem blinkerUniverse_line : ∀ c ∈ blinkerUniverse.cells, c.isAlive = true ↔
    ((c.x = (((0 : Nat) : Int) - 1) % blinkerUniverse.dimX ∨ c.x = (0 : Nat) ∨
      c.x = (((0 : Nat) : Int) + 1) % blinkerUniverse.dimX) ∧ c.y = (4 : Nat)) := by
  intro c hc
  rw [patternUniverse_flags 5 5 _ c hc]
  simp [inTriple, isAt, blinkerUniverse, patternUniverse]

/-- C14, at a concrete input: the blinker centred at `(0, 4)` on the `5 × 5`
torus, which wraps around both edges. -/
theorem blinker_oscillates_witness :
    ∃ st1 st2, blinkerUniverse.nextGeneration natChroma halfEnv = Except.ok st1 ∧
      (∀ c ∈ st1.1.cells, c.isAlive = true ↔
        (c.x = (0 : Nat) ∧
         (c.y = (((4 : Nat) : Int) - 1) % blinkerUniverse.dimY ∨ c.y = (4 : Nat) ∨
          c.y = (((4 : Nat) : Int) + 1) % blinkerUniverse.dimY))) ∧
      st1.1.cells.map (fun c => (c.x, c.y)) = blinkerUniverse.cells.map (fun c => (c.x, c.y)) ∧
      st1.1.nextGeneration natChroma st1.2 = Except.ok st2 ∧
      steps natChroma 2 (blinkerUniverse, halfEnv) = Except.ok st2 ∧
      st2.1.cells.map (fun c => c.isAlive) = blinkerUniverse.cells.map (fun c => c.isAlive) ∧
      st2.1.cells.map (fun c => (c.x, c.y)) = blinkerUniverse.cells.map (fun c => (c.x, c.y)) :=
  blinker_oscillates natChroma blinkerUniverse halfEnv 0 4 (by decide) (by decide) (by decide)
    (by decide) (patternUniverse_wf 5 5 _) blinkerUniverse_line


/-! ## A cell among its own neighbours -/

/-- C15, the claim fails on a grid of width or height `1`: in the `1 × 1` universe
all eight neighbour coordinates of the cell `(0, 0)` are `(0, 0)`, `getNeighbours`
returns the cell itself eight times, and the live-neighbour count of the single
live cell is `8`. -/
theorem single_cell_is_its_own_neighbour :
    (Cell.mk 0 0 true ()).neighbourIndices oneCellUniverse = List.replicate 8 (0, 0) ∧
    (Cell.mk 0 0 true ()).getNeighbours oneCellUniverse
      = List.replicate 8 (some (Cell.mk 0 0 true ())) ∧
    (Cell.mk 0 0 true ()).getLiveNeighboursCount oneCellUniverse = some 8 := by
  refine ⟨by decide, by rfl, by decide⟩

theorem wrapLeft_ne_self (x : Int) (n : Nat) (hn : 2 ≤ n) (hx : 0 ≤ x ∧ x < n) :
    wrapLeft x n ≠ x := by
  rw [wrapLeft_eq_offset, emod_wrap (x + -1) n (by omega) (by omega) (by omega)]
  split_ifs <;> omega

theorem wrapRight_ne_self (x : Int) (n : Nat) (hn : 2 ≤ n) (hx : 0 ≤ x ∧ x < n) :
    wrapRight x n ≠ x := by
  rw [wrapRight_eq_offset, emod_wrap (x + 1) n (by omega) (by omega) (by omega)]
  split_ifs <;> omega

theorem wrap_one (x : Int) (hx : 0 ≤ x ∧ x < ((1 : Nat) : Int)) :
    wrapLeft x 1 = x ∧ wrapRight x 1 = x := by
  have h0 : x = 0 := by omega
  subst h0
  exact ⟨by decide, by decide⟩

/-- C15, amended.  On a grid with at least two columns and two rows none of the
eight neighbour coordinates of an in-range cell is the cell's own, and in a
well-formed universe no cell that `getNeighbours` returns has the coordinates of
the cell itself.  On a grid with a single column the Left and Right neighbours
are the cell itself, and on a grid with a single row the Up and Down neighbours
are. -/
theorem neighbours_exclude_self (u : Universe Color) (c : Cell Color)
    (hx : 0 ≤ c.x ∧ c.x < u.dimX) (hy : 0 ≤ c.y ∧ c.y < u.dimY) :
    (2 ≤ u.dimX → 2 ≤ u.dimY →
      (∀ p ∈ c.neighbourIndices u, p ≠ (c.x, c.y)) ∧
      (u.WellFormed → ∀ n, some n ∈ c.getNeighbours u → (n.x, n.y) ≠ (c.x, c.y))) ∧
    (u.dimX = 1 → c.IndexLeft u = (c.x, c.y) ∧ c.IndexRight u = (c.x, c.y)) ∧
    (u.dimY = 1 → c.IndexUp u = (c.x, c.y) ∧ c.IndexDown u = (c.x, c.y)) := by
  refine ⟨?_, ?_, ?_⟩
  · intro hX hY
    have hl := wrapLeft_ne_self c.x u.dimX hX hx
    have hr := wrapRight_ne_self c.x u.dimX hX hx
    have ha := wrapLeft_ne_self c.y u.dimY hY hy
    have hb := wrapRight_ne_self c.y u.dimY hY hy
    have hidx : ∀ p ∈ c.neighbourIndices u, p ≠ (c.x, c.y) := by
      intro p hp
      rw [neighbourIndices_eq u c (by omega) (by omega) hx.1 hy.1] at hp
      simp only [List.mem_cons, List.mem_singleton, List.not_mem_nil, or_false] at hp
      rcases hp with h | h | h | h | h | h | h | h <;> subst h <;> intro he <;>
        simp only [Prod.mk.injEq] at he <;>
        first
        | exact hl he.1
        | exact hr he.1
        | exact ha he.2
        | exact hb he.2
    refine ⟨hidx, ?_⟩
    intro hwf n hn
    rw [getNeighbours_eq_map, List.mem_map] at hn
    obtain ⟨p, hp, hpn⟩ := hn
    obtain ⟨h1, h2, h3, h4⟩ := neighbourIndices_inRange u c (by omega) (by omega) hx hy p hp
    obtain ⟨d, hd, e1, e2⟩ := wf_getCell_int hwf p.1 p.2 ⟨h1, h2⟩ ⟨h3, h4⟩
    rw [hd] at hpn
    cases hpn
    rw [e1, e2]
    exact hidx p hp
  · intro h1
    have hx' : 0 ≤ c.x ∧ c.x < ((1 : Nat) : Int) := by
      rw [h1] at hx
      exact hx
    have hw := wrap_one c.x hx'
    simp only [Cell.IndexLeft, Cell.IndexRight, leftX_eq u c hx.1 (by omega),
      rightX_eq u c hx.1, h1, hw.1, hw.2, and_self]
  · intro h1
    have hy' : 0 ≤ c.y ∧ c.y < ((1 : Nat) : Int) := by
      rw [h1] at hy
      exact hy
    have hw := wrap_one c.y hy'
    simp only [Cell.IndexUp, Cell.IndexDown, aboveY_eq u c hy.1 (by omega),
      belowY_eq u c hy.1, h1, hw.1, hw.2, and_self]

/-- C15 amended, at a concrete input: the cell `(1, 0)` of the all-dead `2 × 2`
universe. -/
theorem neighbours_exclude_self_witness :
    (∀ p ∈ (Cell.mk 1 0 false 0).neighbourIndices deadSquare, p ≠ ((1 : Int), (0 : Int))) ∧
    (deadSquare.WellFormed → ∀ n, some n ∈ (Cell.mk 1 0 false 0).getNeighbours deadSquare →
      (n.x, n.y) ≠ ((1 : Int), (0 : Int))) :=
  (neighbours_exclude_self deadSquare (Cell.mk 1 0 false 0) (by decide) (by decide)).1
    (by decide) (by decide)


/-! ## The colours passed to the average -/

theorem count_colors_loop (l : List (Option (Cell Color))) (states : List Bool)
    (colors : List Color) (h : (states.filter id).length = colors.length) :
    (l.foldlM (fun (states : List Bool) (cell : Option (Cell Color)) =>
          cell.map (fun n => states ++ [n.isAlive])) states).map
        (fun s => (s.filter id).length)
      = (l.foldlM (fun (colors : List Color) (cell : Option (Cell Color)) =>
          cell.map (fun n => if n.isAlive then colors ++ [n.color] else colors)) colors).map
        List.length := by
  induction l generalizing states colors with
  | nil => simp [h]
  | cons o l ih =>
    cases o with
    | none => simp
    | some n =>
      simp only [List.foldlM_cons, Option.map_some', Option.bind_eq_bind, Option.some_bind]
      apply ih
      cases hn : n.isAlive <;> simp [List.filter_append, h]

theorem states_loop_length (l : List (Option (Cell Color))) (states result : List Bool)
    (h : l.foldlM (fun states cell => cell.map (fun n => states ++ [n.isAlive])) states
      = some result) :
    result.length = states.length + l.length := by
  induction l generalizing states with
  | nil =>
    simp only [List.foldlM_nil, pure, Option.some.injEq] at h
    subst h
    simp
  | cons o l ih =>
    cases o with
    | none => simp at h
    | some n =>
      simp only [List.foldlM_cons, Option.map_some', Option.bind_eq_bind,
        Option.some_bind] at h
      rw [ih _ h]
      simp
      omega

/-- For every cell of every universe the two aggregates agree: the count is the
length of the colour list, and both are undefined together. -/
theorem count_eq_colors_length (u : Universe Color) (c : Cell Color) :
    c.getLiveNeighboursCount u = (c.getLiveNeighboursColors u).map List.length := by
  unfold Cell.getLiveNeighboursCount Cell.getNeighboursState Cell.getLiveNeighboursColors
  exact count_colors_loop _ [] [] rfl

theorem count_le_eight (u : Universe Color) (c : Cell Color) (n : Nat)
    (h : c.getLiveNeighboursCount u = some n) : n ≤ 8 := by
  unfold Cell.getLiveNeighboursCount at h
  cases hs : c.getNeighboursState u with
  | none =>
    rw [hs] at h
    cases h
  | some s =>
    rw [hs] at h
    simp only [Option.map_some', Option.some.injEq] at h
    have hlen := states_loop_length _ _ _ hs
    have h8 : (c.getNeighbours u).length = 8 := rfl
    rw [h8] at hlen
    have := List.length_filter_le id s
    simp only [List.length_nil] at hlen
    omega

/-- C16. The count and the colour list of a cell always have the same length,
at most `8`.  In a well-formed universe both are defined for every cell, and
when the cell is alive with a count of `2` or `3`, which is when it stays
alive, the callback of `nextGeneration` pushes the cell coloured with the
average of a list of exactly that many colours, so never of an empty list. -/
theorem average_list_not_empty (lib : Chroma Color) (u : Universe Color) :
    (∀ c : Cell Color,
      c.getLiveNeighboursCount u = (c.getLiveNeighboursColors u).map List.length ∧
      ∀ n, c.getLiveNeighboursCount u = some n → n ≤ 8) ∧
    (u.WellFormed → ∀ cell ∈ u.cells, ∃ n colors,
      cell.getLiveNeighboursCount u = some n ∧
      cell.getLiveNeighboursColors u = some colors ∧ colors.length = n ∧ n ≤ 8) ∧
    (u.WellFormed → ∀ cell ∈ u.cells, ∀ n, cell.getLiveNeighboursCount u = some n →
      cell.isAlive = true → n = 2 ∨ n = 3 →
      ∃ colors, cell.getLiveNeighboursColors u = some colors ∧
        (colors.length = 2 ∨ colors.length = 3) ∧ colors ≠ [] ∧
        ∀ acc : List (Cell Color) × Env,
          Universe.nextCell lib u acc cell =
            Except.ok (acc.1 ++ [Cell.mk cell.x cell.y true (lib.average colors)], acc.2)) := by
  have hdef : u.WellFormed → ∀ cell ∈ u.cells, ∃ n colors,
      cell.getLiveNeighboursCount u = some n ∧
      cell.getLiveNeighboursColors u = some colors ∧ colors.length = n ∧ n ≤ 8 := by
    intro hwf cell hc
    obtain ⟨_, hx0, hx1, hy0, hy1⟩ := wf_getCell_self hwf cell hc
    obtain ⟨hX, hY⟩ := wf_dims_pos hwf cell hc
    have hcount := wf_liveNeighboursCount hwf cell hX hY ⟨hx0, hx1⟩ ⟨hy0, hy1⟩
    have heq := count_eq_colors_length u cell
    rw [hcount] at heq
    cases hcols : cell.getLiveNeighboursColors u with
    | none =>
      rw [hcols] at heq
      cases heq
    | some colors =>
      rw [hcols] at heq
      simp only [Option.map_some', Option.some.injEq] at heq
      exact ⟨_, colors, hcount, rfl, heq.symm, count_le_eight u cell _ hcount⟩
  refine ⟨fun c => ⟨count_eq_colors_length u c, count_le_eight u c⟩, hdef, ?_⟩
  intro hwf cell hc n hcount ha hn
  obtain ⟨n1, colors, hcount1, hcols, hlen, _⟩ := hdef hwf cell hc
  rw [hcount] at hcount1
  cases hcount1
  obtain ⟨hself, _⟩ := wf_getCell_self hwf cell hc
  refine ⟨colors, hcols, by rw [hlen]; exact hn, ?_, ?_⟩
  · intro he
    rw [he] at hlen
    simp only [List.length_nil] at hlen
    omega
  · intro acc
    simp only [Universe.nextCell, hself, hcount, hcols, ha, if_true]
    rcases hn with h2 | h3
    · simp [h2]
    · simp [h3]

theorem blinkerUniverse_centre : Cell.mk 0 4 true 0 ∈ blinkerUniverse.cells := by
  simp only [blinkerUniverse, patternUniverse, List.mem_map]
  exact ⟨(0, 4), by decide, by simp [inTriple, isAt]⟩

theorem blinkerUniverse_centre_count :
    (Cell.mk 0 4 true 0).getLiveNeighboursCount blinkerUniverse = some 2 := by
  unfold blinkerUniverse
  rw [wf_liveNeighboursCount (patternUniverse_wf 5 5 _) _ (by decide) (by decide)
    (by decide) (by decide)]
  rw [count_of_pattern (patternUniverse_wf 5 5 _) (inTriple 5 0) (isAt 4)
    (patternUniverse_flags 5 5 (fun x y => inTriple 5 0 x && isAt 4 y)) _ _
    (by decide) (by decide) (by decide) (by decide)]
  decide

/-- C16, at a concrete input: the centre `(0, 4)` of the blinker on the `5 × 5`
torus is alive with two live neighbours, and is pushed with the average of two
colours. -/
theorem average_list_not_empty_witness :
    ∃ colors, (Cell.mk 0 4 true 0).getLiveNeighboursColors blinkerUniverse = some colors ∧
      (colors.length = 2 ∨ colors.length = 3) ∧ colors ≠ [] ∧
      ∀ acc : List (Cell Nat) × Env,
        Universe.nextCell natChroma blinkerUniverse acc (Cell.mk 0 4 true 0) =
          Except.ok (acc.1 ++ [Cell.mk 0 4 true (natChroma.average colors)], acc.2) :=
  (average_list_not_empty natChroma blinkerUniverse).2.2 (patternUniverse_wf 5 5 _)
    (Cell.mk 0 4 true 0) blinkerUniverse_centre 2 blinkerUniverse_centre_count rfl (Or.inl rfl)


/-! ## Probabilities outside the unit interval -/

theorem randomCell_ge_one (lib : Chroma Color) (p : ℚ) (hp : 1 ≤ p) :
    Universe.randomCell lib p = Universe.randomCell lib 1 := by
  funext y acc x
  unfold Universe.randomCell
  have h1 : (Math.random acc.2).1 < 1 := (acc.2.draws acc.2.used).lt_one
  have hp1 : (Math.random acc.2).1 < p := lt_of_lt_of_le h1 hp
  simp only [h1, hp1, decide_True, if_true]

theorem randomCell_le_zero (lib : Chroma Color) (p : ℚ) (hp : p ≤ 0) :
    Universe.randomCell lib p = Universe.randomCell lib 0 := by
  funext y acc x
  unfold Universe.randomCell
  have h0 : ¬ (Math.random acc.2).1 < 0 := not_lt.mpr (acc.2.draws acc.2.used).nonneg
  have hp0 : ¬ (Math.random acc.2).1 < p := fun h => h0 (lt_of_lt_of_le h hp)
  simp only [h0, hp0, decide_False, Bool.false_eq_true, if_false]

theorem randomCell_alive (lib : Chroma Color) (p : ℚ) (hp : 1 ≤ p) (y : Nat)
    (acc : List (Cell Color) × Env) (x : Nat) (h : ∀ c ∈ acc.1, c.isAlive = true) :
    ∀ c ∈ (Universe.randomCell lib p y acc x).1, c.isAlive = true := by
  unfold Universe.randomCell
  have h1 : (Math.random acc.2).1 < 1 := (acc.2.draws acc.2.used).lt_one
  have hp1 : (Math.random acc.2).1 < p := lt_of_lt_of_le h1 hp
  simp only [hp1, decide_True, if_true]
  intro c hc
  rcases List.mem_append.mp hc with h2 | h2
  · exact h c h2
  · rw [List.mem_singleton] at h2
    rw [h2]

theorem random_row_alive (lib : Chroma Color) (p : ℚ) (hp : 1 ≤ p) (y : Nat) (xs : List Nat)
    (acc : List (Cell Color) × Env) (h : ∀ c ∈ acc.1, c.isAlive = true) :
    ∀ c ∈ (xs.foldl (Universe.randomCell lib p y) acc).1, c.isAlive = true := by
  induction xs generalizing acc with
  | nil => exact h
  | cons x xs ih =>
    rw [List.foldl_cons]
    exact ih _ (randomCell_alive lib p hp y acc x h)

theorem random_rows_alive (lib : Chroma Color) (p : ℚ) (hp : 1 ≤ p) (dimX : Nat)
    (ys : List Nat) (acc : List (Cell Color) × Env) (h : ∀ c ∈ acc.1, c.isAlive = true) :
    ∀ c ∈ (ys.foldl
      (fun acc y => (List.range dimX).foldl (Universe.randomCell lib p y) acc) acc).1,
      c.isAlive = true := by
  induction ys generalizing acc with
  | nil => exact h
  | cons y ys ih =>
    rw [List.foldl_cons]
    exact ih _ (random_row_alive lib p hp y _ acc h)

/-- C17. A probability above `1` behaves as `1` and one below `0` as `0`: for
every state and every sequence of draws, `random(p)` with `p > 1` gives the
state that `random(1)` gives, in which every cell is alive, and `random(p)`
with `p < 0` gives the state that `random(0)` gives, in which every cell is
dead and black. -/
theorem random_outside_unit_interval (lib : Chroma Color) (u : Universe Color) (env : Env)
    (p : ℚ) :
    (1 < p → Universe.random lib u p env = Universe.random lib u 1 env ∧
      (Universe.random lib u p env).1.cells.length = u.dimX * u.dimY ∧
      ∀ c ∈ (Universe.random lib u p env).1.cells, c.isAlive = true) ∧
    (p < 0 → Universe.random lib u p env = Universe.random lib u 0 env ∧
      (Universe.random lib u p env).1.cells.length = u.dimX * u.dimY ∧
      ∀ c ∈ (Universe.random lib u p env).1.cells,
        c.isAlive = false ∧ c.color = lib.black) := by
  constructor
  · intro hp
    refine ⟨?_, (random_wf lib u p env).1.1.trans (by rw [(random_wf lib u p env).2.1,
      (random_wf lib u p env).2.2.1]), ?_⟩
    · unfold Universe.random
      rw [randomCell_ge_one lib p (le_of_lt hp)]
    · unfold Universe.random
      exact random_rows_alive lib p (le_of_lt hp) u.dimX _ ([], env)
        (fun c hc => by cases hc)
  · intro hp
    have heq : Universe.random lib u p env = Universe.random lib u 0 env := by
      unfold Universe.random
      rw [randomCell_le_zero lib p (le_of_lt hp)]
    refine ⟨heq, (random_wf lib u p env).1.1.trans (by rw [(random_wf lib u p env).2.1,
      (random_wf lib u p env).2.2.1]), ?_⟩
    rw [heq]
    obtain ⟨l, env1, h1, hl, _⟩ := random_spec lib u 0 env
    have hcells := cells_of_random_zero lib _ l hl
    rw [h1]
    intro c hc
    have hc' : c ∈ l := hc
    rw [hcells, List.mem_map] at hc'
    obtain ⟨pos, _, hpos⟩ := hc'
    rw [← hpos]
    exact ⟨rfl, rfl⟩

/-- C17, at concrete inputs: `random(2)` and `random(-1)` on the `2 × 2` universe. -/
theorem random_outside_unit_interval_witness :
    (Universe.random natChroma deadSquare 2 halfEnv
        = Universe.random natChroma deadSquare 1 halfEnv ∧
      (Universe.random natChroma deadSquare 2 halfEnv).1.cells.length
        = deadSquare.dimX * deadSquare.dimY ∧
      ∀ c ∈ (Universe.random natChroma deadSquare 2 halfEnv).1.cells, c.isAlive = true) ∧
    (Universe.random natChroma deadSquare (-1) halfEnv
        = Universe.random natChroma deadSquare 0 halfEnv ∧
      (Universe.random natChroma deadSquare (-1) halfEnv).1.cells.length
        = deadSquare.dimX * deadSquare.dimY ∧
      ∀ c ∈ (Universe.random natChroma deadSquare (-1) halfEnv).1.cells,
        c.isAlive = false ∧ c.color = natChroma.black) :=
  ⟨(random_outside_unit_interval natChroma deadSquare halfEnv 2).1 (by norm_num),
   (random_outside_unit_interval natChroma deadSquare halfEnv (-1)).2 (by norm_num)⟩


/-! ## The next colour -/

theorem colors_loop_eq (l : List (Option (Cell Color))) (acc : List Color)
    (h : ∀ o ∈ l, ∃ n, o = some n) :
    l.foldlM (fun (colors : List Color) (cell : Option (Cell Color)) =>
        cell.map (fun n => if n.isAlive then colors ++ [n.color] else colors)) acc
      = some (acc ++ l.filterMap liveColour) := by
  induction l generalizing acc with
  | nil => simp
  | cons o l ih =>
    obtain ⟨n, hn⟩ := h o (List.mem_cons_self _ _)
    subst hn
    simp only [List.foldlM_cons, Option.map_some', Option.bind_eq_bind, Option.some_bind]
    rw [ih _ (fun o ho => h o (List.mem_cons_of_mem _ ho))]
    cases hal : n.isAlive <;> simp [liveColour, hal]

theorem clockwise_indices (u : Universe Color) (c : Cell Color)
    (hX : 1 ≤ u.dimX) (hY : 1 ≤ u.dimY)
    (hx : 0 ≤ c.x ∧ c.x < u.dimX) (hy : 0 ≤ c.y ∧ c.y < u.dimY) :
    c.neighbourIndices u =
      clockwiseOffsets.map (fun d => ((c.x + d.1) % u.dimX, (c.y + d.2) % u.dimY)) := by
  rw [neighbourIndices_eq u c hX hY hx.1 hy.1]
  simp only [clockwiseOffsets, List.map_cons, List.map_nil, wrapLeft_eq_offset,
    wrapRight_eq_offset, wrap_self c.x u.dimX hx, wrap_self c.y u.dimY hy]

/-- In a well-formed universe `getLiveNeighboursColors` returns the colours of
the live wrapped neighbours in clockwise order. -/
theorem wf_liveNeighboursColors {u : Universe Color} (h : u.WellFormed) (c : Cell Color)
    (hX : 1 ≤ u.dimX) (hY : 1 ≤ u.dimY)
    (hx : 0 ≤ c.x ∧ c.x < u.dimX) (hy : 0 ≤ c.y ∧ c.y < u.dimY) :
    c.getLiveNeighboursColors u = some (u.liveNeighbourColours c.x c.y) := by
  unfold Cell.getLiveNeighboursColors
  rw [colors_loop_eq _ _ (wf_neighbours_defined h c hX hY hx hy), getNeighbours_eq_map,
    clockwise_indices u c hX hY hx hy, List.map_map, List.filterMap_map]
  rfl

theorem nextColour_survive (lib : Chroma Color) (u : Universe Color) (cell : Cell Color)
    (sample : Color) (ha : cell.isAlive = true)
    (hr : conwayRule cell.isAlive (u.toroidalLiveCount cell.x cell.y)) :
    nextColour lib u cell sample = lib.average (u.liveNeighbourColours cell.x cell.y) := by
  unfold nextColour
  rw [if_pos ⟨ha, hr⟩]

theorem nextColour_born (lib : Chroma Color) (u : Universe Color) (cell : Cell Color)
    (sample : Color) (ha : cell.isAlive = false)
    (hr : conwayRule cell.isAlive (u.toroidalLiveCount cell.x cell.y)) :
    nextColour lib u cell sample = sample := by
  unfold nextColour
  rw [if_neg (fun hh => by rw [ha] at hh; cases hh.1), if_pos ⟨ha, hr⟩]

theorem nextColour_fade (lib : Chroma Color) (u : Universe Color) (cell : Cell Color)
    (sample : Color)
    (hr : ¬ conwayRule cell.isAlive (u.toroidalLiveCount cell.x cell.y)) :
    nextColour lib u cell sample =
      if lib.lightness cell.color < 1 / 10 then cell.color
      else lib.darken cell.color (15 / 100) := by
  unfold nextColour
  rw [if_neg (fun hh => hr hh.2), if_neg (fun hh => hr hh.2)]

/-- In a well-formed universe the `forEach` callback pushes, for every cell, a
cell that evolves by the rule and has the next colour of the specification. -/
theorem nextCell_coloured (lib : Chroma Color) {u : Universe Color} (h : u.WellFormed)
    (acc : List (Cell Color) × Env) (cell : Cell Color) (hc : cell ∈ u.cells) :
    ∃ next env1, Universe.nextCell lib u acc cell = Except.ok (acc.1 ++ [next], env1) ∧
      u.EvolvesColoured lib cell next := by
  obtain ⟨hself, hx0, hx1, hy0, hy1⟩ := wf_getCell_self h cell hc
  obtain ⟨hX, hY⟩ := wf_dims_pos h cell hc
  have hcount := wf_liveNeighboursCount h cell hX hY ⟨hx0, hx1⟩ ⟨hy0, hy1⟩
  have hcols := wf_liveNeighboursColors h cell hX hY ⟨hx0, hx1⟩ ⟨hy0, hy1⟩
  have hrule := nextState_iff_rule cell.isAlive (u.toroidalLiveCount cell.x cell.y)
  have hd0 := (acc.2.draws acc.2.used).nonneg
  have hd1 := (acc.2.draws acc.2.used).lt_one
  simp only [Universe.nextCell, hself, hcount, hcols]
  rcases Bool.eq_false_or_eq_true cell.isAlive with ha | ha
  · have hrule1 := hrule
    simp only [ha, if_true] at hrule1 ⊢
    split_ifs with h1 h2 h3
    · refine ⟨_, _, rfl, ⟨rfl, rfl, by rw [ha]; exact hrule1⟩, _, hd0, hd1, ?_⟩
      simp only [Bool.true_and] at h1
      exact (nextColour_survive lib u cell _ ha (by rw [ha]; exact hrule1.mp h1)).symm
    · simp at h2
    · refine ⟨_, _, rfl, ⟨rfl, rfl, by rw [ha]; exact hrule1⟩, _, hd0, hd1, ?_⟩
      simp only [Bool.true_and] at h1
      rw [nextColour_fade lib u cell _ (by rw [ha]; exact fun hr => h1 (hrule1.mpr hr))]
      exact (if_pos h3).symm
    · refine ⟨_, _, rfl, ⟨rfl, rfl, by rw [ha]; exact hrule1⟩, _, hd0, hd1, ?_⟩
      simp only [Bool.true_and] at h1
      rw [nextColour_fade lib u cell _ (by rw [ha]; exact fun hr => h1 (hrule1.mpr hr))]
      exact (if_neg h3).symm
  · have hrule1 := hrule
    simp only [ha, Bool.false_eq_true, if_false] at hrule1 ⊢
    split_ifs with h1 h2 h3
    · simp at h1
    · refine ⟨_, _, rfl, ⟨rfl, rfl, by rw [ha]; exact hrule1⟩, _, hd0, hd1, ?_⟩
      simp only [Bool.not_false, Bool.true_and] at h2
      exact (nextColour_born lib u cell _ ha (by rw [ha]; exact hrule1.mp h2)).symm
    · refine ⟨_, _, rfl, ⟨rfl, rfl, by rw [ha]; exact hrule1⟩, _, hd0, hd1, ?_⟩
      simp only [Bool.not_false, Bool.true_and] at h2
      rw [nextColour_fade lib u cell _ (by rw [ha]; exact fun hr => h2 (hrule1.mpr hr))]
      exact (if_pos h3).symm
    · refine ⟨_, _, rfl, ⟨rfl, rfl, by rw [ha]; exact hrule1⟩, _, hd0, hd1, ?_⟩
      simp only [Bool.not_false, Bool.true_and] at h2
      rw [nextColour_fade lib u cell _ (by rw [ha]; exact fun hr => h2 (hrule1.mpr hr))]
      exact (if_neg h3).symm


theorem nextGen_loop_coloured (lib : Chroma Color) {u : Universe Color} (h : u.WellFormed)
    (l : List (Cell Color)) (hl : ∀ c ∈ l, c ∈ u.cells) (acc : List (Cell Color) × Env) :
    ∃ l1 env1, l.foldlM (Universe.nextCell lib u) acc = Except.ok (acc.1 ++ l1, env1) ∧
      List.Forall₂ (u.EvolvesColoured lib) l l1 := by
  induction l generalizing acc with
  | nil => exact ⟨[], acc.2, by simp [pure, Except.pure], List.Forall₂.nil⟩
  | cons c l ih =>
    obtain ⟨next, env1, h1, hev⟩ :=
      nextCell_coloured lib h acc c (hl c (List.mem_cons_self _ _))
    obtain ⟨l1, env2, h2, hall⟩ :=
      ih (fun c hc => hl c (List.mem_cons_of_mem _ hc)) (acc.1 ++ [next], env1)
    refine ⟨next :: l1, env2, ?_, List.Forall₂.cons hev hall⟩
    rw [List.foldlM_cons, h1]
    simp only [bind, Except.bind]
    rw [h2]
    simp

/-- A step of a well-formed universe returns with every cell evolved by the rule
and coloured as the specification says. -/
theorem nextGeneration_coloured (lib : Chroma Color) {u : Universe Color}
    (h : u.WellFormed) (env : Env) :
    ∃ st, u.nextGeneration lib env = Except.ok st ∧ st.1.WellFormed ∧
      List.Forall₂ (u.EvolvesColoured lib) u.cells st.1.cells := by
  obtain ⟨l1, env1, h1, hall⟩ := nextGen_loop_coloured lib h u.cells (fun _ hc => hc) ([], env)
  obtain ⟨st, h2, hwf, _⟩ := nextGeneration_wf lib h env
  have h3 : u.nextGeneration lib env =
      Except.ok ({ u with cells := l1, generation := u.generation + 1 }, env1) := by
    unfold Universe.nextGeneration
    rw [h1]
    simp
  rw [h3] at h2
  cases h2
  exact ⟨_, h3, hwf, hall⟩

theorem steps_succ_right (lib : Chroma Color) (n : Nat) (st : State Color) :
    steps lib (n + 1) st =
      match steps lib n st with
      | Except.ok st1 => st1.1.nextGeneration lib st1.2
      | Except.error e => Except.error e := by
  induction n generalizing st with
  | zero =>
    simp only [steps]
    cases st.1.nextGeneration lib st.2 <;> rfl
  | succ n ih =>
    rw [steps]
    cases h : st.1.nextGeneration lib st.2 with
    | error e => simp [steps, h]
    | ok st1 =>
      simp only []
      rw [ih st1]
      simp [steps, h]

theorem steps_wf (lib : Chroma Color) (n : Nat) (st st1 : State Color)
    (h : st.1.WellFormed) (h1 : steps lib n st = Except.ok st1) : st1.1.WellFormed := by
  obtain ⟨st2, h2, hwf, _⟩ := steps_generation lib n st h
  rw [h1] at h2
  cases h2
  exact hwf

/-- A dead-next cell whose colour is below the lightness threshold keeps it: in a
run of `n` steps from a well-formed universe, a cell that is dead after each of
the steps has after the last one the colour it had at the start, if the
lightness of that colour is below `0.1`. -/
theorem faded_colour_persists (lib : Chroma Color) (u : Universe Color) (env : Env)
    (h : u.WellFormed) (i : Nat) (cell : Cell Color) (hcell : u.cells[i]? = some cell)
    (hdark : lib.lightness cell.color < 1 / 10) (n : Nat) (stn : State Color)
    (hn : steps lib n (u, env) = Except.ok stn)
    (hdead : ∀ k stk ck, 1 ≤ k → k ≤ n → steps lib k (u, env) = Except.ok stk →
      stk.1.cells[i]? = some ck → ck.isAlive = false) :
    ∃ cn, stn.1.cells[i]? = some cn ∧ cn.color = cell.color := by
  induction n generalizing stn with
  | zero =>
    simp only [steps, Except.ok.injEq] at hn
    subst hn
    exact ⟨cell, hcell, rfl⟩
  | succ n ih =>
    rw [steps_succ_right] at hn
    cases hm : steps lib n (u, env) with
    | error e =>
      rw [hm] at hn
      cases hn
    | ok stm =>
      rw [hm] at hn
      simp only [] at hn
      obtain ⟨cm, hcm, hcol⟩ := ih stm hm
        (fun k stk ck h1 h2 h3 h4 => hdead k stk ck h1 (by omega) h3 h4)
      have hwf := steps_wf lib n (u, env) stm h hm
      obtain ⟨st1, hs1, _, hall⟩ := nextGeneration_coloured lib hwf stm.2
      rw [hn] at hs1
      cases hs1
      obtain ⟨cn, hcn, hev, t, _, _, hcolour⟩ := forall₂_getElem? hall i cm hcm
      refine ⟨cn, hcn, ?_⟩
      have hcnd : cn.isAlive = false :=
        hdead (n + 1) stn cn (by omega) (le_refl _)
          (by rw [steps_succ_right, hm]; exact hn) hcn
      have hnr : ¬ conwayRule cm.isAlive (stm.1.toroidalLiveCount cm.x cm.y) := by
        intro hr
        have := hev.2.2.mpr hr
        rw [hcnd] at this
        cases this
      rw [hcolour, nextColour_fade lib stm.1 cm _ hnr, hcol, if_pos hdark]


/-- C18. With the colour library abstract, a step of a well-formed universe
returns and gives every cell its next colour by these cases: alive and staying
alive, the average of the colours of the live neighbours in the clockwise order
Up, UpRight, Right, DownRight, Down, DownLeft, Left, UpLeft, which is the list
`getLiveNeighboursColors` returns; dead and becoming alive, a sample of the
scale at a draw from `[0, 1)`; otherwise its colour, unchanged if its lightness
is below `0.1` and darkened by `0.15` if not.  Hence a cell that is dead after
each step of a run and whose colour has a lightness below `0.1` has that same
colour after the run. -/
theorem nextGeneration_colours (lib : Chroma Color) (u : Universe Color) (env : Env)
    (h : u.WellFormed) :
    (∃ st, u.nextGeneration lib env = Except.ok st ∧
      List.Forall₂
        (fun cell next => ∃ t : ℚ, 0 ≤ t ∧ t < 1 ∧
          next.color = nextColour lib u cell (lib.scale t))
        u.cells st.1.cells) ∧
    (∀ (cell : Cell Color) (sample : Color),
      (cell.isAlive = true → conwayRule cell.isAlive (u.toroidalLiveCount cell.x cell.y) →
        nextColour lib u cell sample = lib.average (u.liveNeighbourColours cell.x cell.y)) ∧
      (cell.isAlive = false → conwayRule cell.isAlive (u.toroidalLiveCount cell.x cell.y) →
        nextColour lib u cell sample = sample) ∧
      (¬ conwayRule cell.isAlive (u.toroidalLiveCount cell.x cell.y) →
        (lib.lightness cell.color < 1 / 10 → nextColour lib u cell sample = cell.color) ∧
        (¬ lib.lightness cell.color < 1 / 10 →
          nextColour lib u cell sample = lib.darken cell.color (15 / 100)))) ∧
    (∀ cell ∈ u.cells,
      cell.getLiveNeighboursColors u = some (u.liveNeighbourColours cell.x cell.y)) ∧
    (∀ (i n : Nat) (cell : Cell Color) (stn : State Color),
      u.cells[i]? = some cell → lib.lightness cell.color < 1 / 10 →
      steps lib n (u, env) = Except.ok stn →
      (∀ k stk ck, 1 ≤ k → k ≤ n → steps lib k (u, env) = Except.ok stk →
        stk.1.cells[i]? = some ck → ck.isAlive = false) →
      ∃ cn, stn.1.cells[i]? = some cn ∧ cn.color = cell.color) := by
  refine ⟨?_, ?_, ?_, ?_⟩
  · obtain ⟨st, h1, _, hall⟩ := nextGeneration_coloured lib h env
    refine ⟨st, h1, ?_⟩
    exact hall.imp (fun _ _ hev => hev.2)
  · intro cell sample
    refine ⟨nextColour_survive lib u cell sample, nextColour_born lib u cell sample, ?_⟩
    intro hr
    rw [nextColour_fade lib u cell sample hr]
    exact ⟨fun hd => if_pos hd, fun hd => if_neg hd⟩
  · intro cell hc
    obtain ⟨_, hx0, hx1, hy0, hy1⟩ := wf_getCell_self h cell hc
    obtain ⟨hX, hY⟩ := wf_dims_pos h cell hc
    exact wf_liveNeighboursColors h cell hX hY ⟨hx0, hx1⟩ ⟨hy0, hy1⟩
  · intro i n cell stn hcell hdark hn hdead
    exact faded_colour_persists lib u env h i cell hcell hdark n stn hn hdead

theorem dead_rule :
    conwayRule (false && false)
      (productCount false false false false false false) ↔ (false && false) = true := by
  simp [conwayRule, productCount]

/-- C18, at a concrete input: in the all-dead, all-black `2 × 2` universe every
cell keeps its colour over a step. -/
theorem nextGeneration_colours_witness :
    ∃ st1 c1, steps natChroma 1 (deadSquare, halfEnv) = Except.ok st1 ∧
      st1.1.cells[0]? = some c1 ∧ c1.color = 0 := by
  have hp : deadSquare.HasPattern (fun _ => false) (fun _ => false) := by
    intro c hc
    simp only [deadSquare, List.mem_cons, List.mem_singleton, List.not_mem_nil,
      or_false] at hc
    rcases hc with h | h | h | h <;> rw [h] <;> rfl
  obtain ⟨st1, h1, _, _, _, hp1, _⟩ := pattern_step natChroma deadSquare_wf
    (fun _ => false) (fun _ => false) (fun _ => false) (fun _ => false) hp
    (fun _ _ _ _ => dead_rule) halfEnv
  have hs : steps natChroma 1 (deadSquare, halfEnv) = Except.ok st1 := by
    simp only [steps, h1]
  obtain ⟨cn, hcn, hcol⟩ :=
    (nextGeneration_colours natChroma deadSquare halfEnv deadSquare_wf).2.2.2 0 1
      (Cell.mk 0 0 false 0) st1 rfl (by norm_num [natChroma]) hs
      (fun k stk ck hk1 hk2 hk hck => by
        have hk' : k = 1 := by omega
        subst hk'
        rw [hs] at hk
        cases hk
        have := hp1 ck (List.getElem?_mem hck)
        simpa using this)
  exact ⟨st1, cn, hs, hcn, hcol⟩


/-! ## Symmetry of adjacency -/

theorem wrap_opposite (n : Nat) (hn : 1 ≤ n) (x z : Int) (hx : 0 ≤ x ∧ x < n)
    (hz : 0 ≤ z ∧ z < n) : wrapLeft x n = z ↔ wrapRight z n = x := by
  rw [wrapLeft_eq_offset, wrapRight_eq_offset,
    emod_wrap (x + -1) n hn (by omega) (by omega),
    emod_wrap (z + 1) n hn (by omega) (by omega)]
  split_ifs <;> omega

/-- C19. Toroidal adjacency is symmetric slot by slot: for two in-range cells
`a` and `b` of a grid with at least one column and one row, `b` is at the Up
(UpRight, Right, DownRight) coordinates of `a` exactly if `a` is at the Down
(DownLeft, Left, UpLeft) coordinates of `b`, and the same with the roles of the
slots exchanged; so the coordinates of `b` occur among the eight neighbour
coordinates of `a` as often as those of `a` among the eight of `b`. -/
theorem adjacency_symmetric (u : Universe Color) (a b : Cell Color)
    (hX : 1 ≤ u.dimX) (hY : 1 ≤ u.dimY)
    (hax : 0 ≤ a.x ∧ a.x < u.dimX) (hay : 0 ≤ a.y ∧ a.y < u.dimY)
    (hbx : 0 ≤ b.x ∧ b.x < u.dimX) (hby : 0 ≤ b.y ∧ b.y < u.dimY) :
    (a.IndexUp u = (b.x, b.y) ↔ b.IndexDown u = (a.x, a.y)) ∧
    (a.IndexUpRight u = (b.x, b.y) ↔ b.IndexDownLeft u = (a.x, a.y)) ∧
    (a.IndexRight u = (b.x, b.y) ↔ b.IndexLeft u = (a.x, a.y)) ∧
    (a.IndexDownRight u = (b.x, b.y) ↔ b.IndexUpLeft u = (a.x, a.y)) ∧
    (a.IndexDown u = (b.x, b.y) ↔ b.IndexUp u = (a.x, a.y)) ∧
    (a.IndexDownLeft u = (b.x, b.y) ↔ b.IndexUpRight u = (a.x, a.y)) ∧
    (a.IndexLeft u = (b.x, b.y) ↔ b.IndexRight u = (a.x, a.y)) ∧
    (a.IndexUpLeft u = (b.x, b.y) ↔ b.IndexDownRight u = (a.x, a.y)) ∧
    (a.neighbourIndices u).count (b.x, b.y) = (b.neighbourIndices u).count (a.x, a.y) := by
  have hl := wrap_opposite u.dimX hX a.x b.x hax hbx
  have hl' := wrap_opposite u.dimX hX b.x a.x hbx hax
  have hu := wrap_opposite u.dimY hY a.y b.y hay hby
  have hu' := wrap_opposite u.dimY hY b.y a.y hby hay
  have h1 : a.IndexUp u = (b.x, b.y) ↔ b.IndexDown u = (a.x, a.y) := by
    simp only [Cell.IndexUp, Cell.IndexDown, aboveY_eq u a hay.1 hY, belowY_eq u b hby.1,
      Prod.mk.injEq, hu]
    constructor <;> rintro ⟨p, q⟩ <;> exact ⟨p.symm, q⟩
  have h2 : a.IndexUpRight u = (b.x, b.y) ↔ b.IndexDownLeft u = (a.x, a.y) := by
    simp only [Cell.IndexUpRight, Cell.IndexDownLeft, aboveY_eq u a hay.1 hY,
      belowY_eq u b hby.1, rightX_eq u a hax.1, leftX_eq u b hbx.1 hX, Prod.mk.injEq, hu, hl']
  have h3 : a.IndexRight u = (b.x, b.y) ↔ b.IndexLeft u = (a.x, a.y) := by
    simp only [Cell.IndexRight, Cell.IndexLeft, rightX_eq u a hax.1, leftX_eq u b hbx.1 hX,
      Prod.mk.injEq, hl']
    constructor <;> rintro ⟨p, q⟩ <;> exact ⟨p, q.symm⟩
  have h4 : a.IndexDownRight u = (b.x, b.y) ↔ b.IndexUpLeft u = (a.x, a.y) := by
    simp only [Cell.IndexDownRight, Cell.IndexUpLeft, belowY_eq u a hay.1,
      aboveY_eq u b hby.1 hY, rightX_eq u a hax.1, leftX_eq u b hbx.1 hX, Prod.mk.injEq,
      hu', hl']
  have h5 : a.IndexDown u = (b.x, b.y) ↔ b.IndexUp u = (a.x, a.y) := by
    simp only [Cell.IndexUp, Cell.IndexDown, aboveY_eq u b hby.1 hY, belowY_eq u a hay.1,
      Prod.mk.injEq, hu']
    constructor <;> rintro ⟨p, q⟩ <;> exact ⟨p.symm, q⟩
  have h6 : a.IndexDownLeft u = (b.x, b.y) ↔ b.IndexUpRight u = (a.x, a.y) := by
    simp only [Cell.IndexUpRight, Cell.IndexDownLeft, aboveY_eq u b hby.1 hY,
      belowY_eq u a hay.1, rightX_eq u b hbx.1, leftX_eq u a hax.1 hX, Prod.mk.injEq, hu', hl]
  have h7 : a.IndexLeft u = (b.x, b.y) ↔ b.IndexRight u = (a.x, a.y) := by
    simp only [Cell.IndexRight, Cell.IndexLeft, rightX_eq u b hbx.1, leftX_eq u a hax.1 hX,
      Prod.mk.injEq, hl]
    constructor <;> rintro ⟨p, q⟩ <;> exact ⟨p, q.symm⟩
  have h8 : a.IndexUpLeft u = (b.x, b.y) ↔ b.IndexDownRight u = (a.x, a.y) := by
    simp only [Cell.IndexDownRight, Cell.IndexUpLeft, belowY_eq u b hby.1,
      aboveY_eq u a hay.1 hY, rightX_eq u b hbx.1, leftX_eq u a hax.1 hX, Prod.mk.injEq,
      hu, hl]
  refine ⟨h1, h2, h3, h4, h5, h6, h7, h8, ?_⟩
  simp only [Cell.neighbourIndices, List.count_cons, List.count_nil, beq_iff_eq,
    h1, h2, h3, h4, h5, h6, h7, h8]
  omega


/-- C19, at a concrete input: the cells `(0, 0)` and `(1, 0)` of a `2 × 2` grid. -/
theorem adjacency_symmetric_witness :
    ((Cell.mk 0 0 false 0).neighbourIndices deadSquare).count (1, 0)
      = ((Cell.mk 1 0 false 0).neighbourIndices deadSquare).count (0, 0) :=
  (adjacency_symmetric deadSquare (Cell.mk 0 0 false 0) (Cell.mk 1 0 false 0) (by decide)
    (by decide) (by decide) (by decide) (by decide) (by decide)).2.2.2.2.2.2.2.2

/-! ## The title determines its inputs -/

theorem digitChar_isDigit : ∀ d, d < 10 → (Nat.digitChar d).isDigit = true := by
  decide

theorem digitChar_inj :
    ∀ d, d < 10 → ∀ e, e < 10 → Nat.digitChar d = Nat.digitChar e → d = e := by
  decide

theorem map_digitChar_inj (l1 l2 : List Nat) (h1 : ∀ d ∈ l1, d < 10) (h2 : ∀ d ∈ l2, d < 10)
    (h : l1.map Nat.digitChar = l2.map Nat.digitChar) : l1 = l2 := by
  induction l1 generalizing l2 with
  | nil =>
    cases l2 with
    | nil => rfl
    | cons e l2 => simp at h
  | cons d l1 ih =>
    cases l2 with
    | nil => simp at h
    | cons e l2 =>
      simp only [List.map_cons, List.cons.injEq] at h
      have hde := digitChar_inj d (h1 d (List.mem_cons_self _ _)) e
        (h2 e (List.mem_cons_self _ _)) h.1
      rw [hde, ih l2 (fun x hx => h1 x (List.mem_cons_of_mem _ hx))
        (fun x hx => h2 x (List.mem_cons_of_mem _ hx)) h.2]

theorem decimalDigits_isDigit (n : Nat) : ∀ c ∈ decimalDigits n, c.isDigit = true := by
  intro c hc
  unfold decimalDigits at hc
  split_ifs at hc with h0
  · rw [List.mem_singleton] at hc
    rw [hc]
    decide
  · rw [List.mem_map] at hc
    obtain ⟨d, hd, hdc⟩ := hc
    rw [← hdc]
    exact digitChar_isDigit d (Nat.digits_lt_base (by decide) (List.mem_reverse.mp hd))

theorem decimalDigits_inj (n m : Nat) (h : decimalDigits n = decimalDigits m) : n = m := by
  have key : ∀ k : Nat, k ≠ 0 → decimalDigits k ≠ ['0'] := by
    intro k hk he
    unfold decimalDigits at he
    rw [if_neg hk] at he
    have hz : (Nat.digits 10 k).reverse.map Nat.digitChar = [0].map Nat.digitChar := he
    have := map_digitChar_inj _ _
      (fun d hd => Nat.digits_lt_base (by decide) (List.mem_reverse.mp hd))
      (fun d hd => by
        rw [List.mem_singleton] at hd
        omega) hz
    have hd : Nat.digits 10 k = [0] := by
      have h2 := congrArg List.reverse this
      simpa using h2
    have hlast := Nat.getLast_digit_ne_zero 10 hk
    simp only [hd, List.getLast_singleton, ne_eq, not_true_eq_false] at hlast
  by_cases hn : n = 0
  · by_cases hm : m = 0
    · rw [hn, hm]
    · exfalso
      apply key m hm
      rw [← h, hn]
      rfl
  · by_cases hm : m = 0
    · exfalso
      apply key n hn
      rw [h, hm]
      rfl
    · unfold decimalDigits at h
      rw [if_neg hn, if_neg hm] at h
      have := map_digitChar_inj _ _
        (fun d hd => Nat.digits_lt_base (by decide) (List.mem_reverse.mp hd))
        (fun d hd => Nat.digits_lt_base (by decide) (List.mem_reverse.mp hd)) h
      have h2 := congrArg List.reverse this
      simp only [List.reverse_reverse] at h2
      exact Nat.digits_inj_iff.mp h2


theorem numberToString_chars (n : Int) :
    ∀ c ∈ numberToString n, c.isDigit = true ∨ c = '-' := by
  intro c hc
  cases n with
  | ofNat m => exact Or.inl (decimalDigits_isDigit m c hc)
  | negSucc m =>
    simp only [numberToString, List.mem_cons] at hc
    rcases hc with h | h
    · exact Or.inr h
    · exact Or.inl (decimalDigits_isDigit _ c h)

theorem numberToString_inj (n m : Int) (h : numberToString n = numberToString m) : n = m := by
  have hminus : ∀ k j : Nat, decimalDigits k ≠ '-' :: decimalDigits j := by
    intro k j he
    have hmem : '-' ∈ decimalDigits k := by
      rw [he]
      exact List.mem_cons_self _ _
    have := decimalDigits_isDigit k '-' hmem
    revert this
    decide
  cases n with
  | ofNat a =>
    cases m with
    | ofNat b =>
      have := decimalDigits_inj a b h
      rw [this]
    | negSucc b => exact absurd h (hminus a (b + 1))
  | negSucc a =>
    cases m with
    | ofNat b => exact absurd h.symm (hminus b (a + 1))
    | negSucc b =>
      simp only [numberToString, List.cons.injEq, true_and] at h
      have := decimalDigits_inj _ _ h
      have hab : a = b := by omega
      rw [hab]

theorem append_separator_inj (sep : Char) (l1 l2 r1 r2 : List Char) (h1 : sep ∉ l1)
    (h2 : sep ∉ l2) (h : l1 ++ sep :: r1 = l2 ++ sep :: r2) : l1 = l2 ∧ r1 = r2 := by
  induction l1 generalizing l2 with
  | nil =>
    cases l2 with
    | nil =>
      simp only [List.nil_append, List.cons.injEq, true_and] at h
      exact ⟨rfl, h⟩
    | cons c l2 =>
      simp only [List.nil_append, List.cons_append, List.cons.injEq] at h
      exact absurd (h.1 ▸ List.mem_cons_self _ _) h2
  | cons c l1 ih =>
    cases l2 with
    | nil =>
      simp only [List.nil_append, List.cons_append, List.cons.injEq] at h
      exact absurd (h.1 ▸ List.mem_cons_self _ _) h1
    | cons d l2 =>
      simp only [List.cons_append, List.cons.injEq] at h
      obtain ⟨e1, e2⟩ := ih l2 (fun hm => h1 (List.mem_cons_of_mem _ hm))
        (fun hm => h2 (List.mem_cons_of_mem _ hm)) h.2
      exact ⟨by rw [h.1, e1], e2⟩

theorem numberToString_no_letter (n : Int) (sep : Char) (hd : sep.isDigit = false)
    (hm : sep ≠ '-') : sep ∉ numberToString n := by
  intro hmem
  rcases numberToString_chars n sep hmem with h | h
  · rw [hd] at h
    cases h
  · exact hm h

/-- C20. The title determines the triple it is made of: two states, with any
cells, whose titles are equal have the same id, negative or not, the same
generation and the same colour mode. -/
theorem getStateTitle_injective {Color2 : Type} (u1 : Universe Color) (u2 : Universe Color2)
    (env1 env2 : Env) (h : u1.getStateTitle env1 = u2.getStateTitle env2) :
    u1.id = u2.id ∧ u1.generation = u2.generation ∧ env1.isColored = env2.isColored := by
  unfold Universe.getStateTitle at h
  simp only [List.singleton_append, List.cons_append, List.append_assoc, List.cons.injEq,
    true_and, List.nil_append] at h
  obtain ⟨hid, hrest⟩ := append_separator_inj 'G' _ _ _ _
    (numberToString_no_letter u1.id 'G' (by decide) (by decide))
    (numberToString_no_letter u2.id 'G' (by decide) (by decide)) h
  obtain ⟨hgen, hflag⟩ := append_separator_inj 'C' _ _ _ _
    (numberToString_no_letter _ 'C' (by decide) (by decide))
    (numberToString_no_letter _ 'C' (by decide) (by decide)) hrest
  refine ⟨numberToString_inj _ _ hid, ?_, ?_⟩
  · have := numberToString_inj _ _ hgen
    exact_mod_cast this
  · cases h1 : env1.isColored <;> cases h2 : env2.isColored <;> simp [h1, h2] at hflag <;> rfl

/-- C20, at a concrete input: two universes with different cells and equal titles. -/
theorem getStateTitle_injective_witness :
    deadSquare.id = (11 : Int) ∧ deadSquare.generation = 5 ∧
      halfEnv.isColored = halfEnv.isColored :=
  getStateTitle_injective deadSquare { paintedSquare with id := 11, generation := 5 }
    halfEnv halfEnv rfl

end GameOfLife
